import Mathlib

/-!
Verification of the Weighted Scoring Model (WSM) engine of the `orcas`
backend (`backend/app/services/wsm_service.py`).

The Python service is shallowly embedded: float arithmetic is modelled by
exact rationals (`ℚ`), Python `dict`s by association lists whose update
(`upsert`) replaces the first occurrence in place — which reproduces the
dict-comprehension semantics "first-insertion position, last value wins" —
and raised `HTTPException`s by `Except String` carrying the `detail` string.
Database rows `(ticker, metric, year, value)` for a fixed year are modelled
as a list of `(ticker, metric_name, Option ℚ)` triples; metric primary-key
ids are identified with metric names (the service resolves names to ids
bijectively through `_pick_metric_definitions`).
-/

namespace Wsm

/-- Metric orientation (`type` column: `"benefit"` or `"cost"`). -/
inductive MType
  | benefit
  | cost
deriving DecidableEq, Repr

/-- The `missing_policy` request field. -/
inductive Policy
  | zero
  | redistribute
  | drop
deriving DecidableEq, Repr

/-- Error detail string of a raised `HTTPException`. -/
abbrev WErr := String

/-- A Python `dict` keyed by strings, as an association list. -/
abbrev Dict (α : Type) := List (String × α)

/-- One database row for the requested year: (ticker, metric name, value). -/
abbrev Row := String × String × Option ℚ

/-- `d[k]` as an option: value at the first occurrence of `k`. -/
def dlookup (k : String) : Dict α → Option α
  | [] => none
  | (k', v) :: d => if k' = k then some v else dlookup k d

/-- `d[k] = v`: replace the first occurrence of `k` in place, else append.
This is exactly the Python dict insertion/update semantics. -/
def upsert (k : String) (v : α) : Dict α → Dict α
  | [] => [(k, v)]
  | (k', v') :: d => if k' = k then (k, v) :: d else (k', v') :: upsert k v d

/-- Remove the first occurrence of key `k`. -/
def derase (k : String) : Dict α → Dict α
  | [] => []
  | (k', v') :: d => if k' = k then d else (k', v') :: derase k d

/-- `list(d.keys())`. -/
def dkeys (d : Dict α) : List String := d.map (·.1)

/-- `dict(l)` / a dict comprehension over the pairs of `l`. -/
def dictOf (l : List (String × α)) : Dict α :=
  l.foldl (fun d kv => upsert kv.1 kv.2 d) []

/-- `sum(d.values())`. -/
def sumValues (d : Dict ℚ) : ℚ := (d.map (·.2)).sum

/-- `_clamp01` from the service (also inlined as `max(0.0, min(1.0, raw))`). -/
def clamp01 (x : ℚ) : ℚ := max 0 (min 1 x)

/-- Python3 `round` to an integer: round half to even. -/
def pyRound (q : ℚ) : ℤ :=
  if q - ⌊q⌋ < 1 / 2 then ⌊q⌋
  else if 1 / 2 < q - ⌊q⌋ then ⌊q⌋ + 1
  else if ⌊q⌋ % 2 = 0 then ⌊q⌋ else ⌊q⌋ + 1

/-- `round(q, 6)`. -/
def round6 (q : ℚ) : ℚ := (pyRound (q * 1000000) : ℚ) / 1000000

/-! ### Weight resolution (embeds the weight helpers of `wsm_service.py`) -/

/-- One entry of the `metrics` request list (`MetricWeightInput` schema).
Pydantic validates `weight` with `ge=0`; that bound appears as a hypothesis
in theorems that rely on it. -/
structure MetricWeightInput where
  metric_name : String
  type : MType
  weight : ℚ
deriving DecidableEq, Repr

/-- One row of the metric catalog (`MetricMappingEntry` of
`metric_mapping_loader.py`); `msection` is the Python `section` field
(a Lean keyword). Fields not used by the scoring engine
(`display_unit`, `allow_negative`) are omitted. -/
structure MetricMappingEntry where
  metric_name : String
  msection : String
  type : MType
  default_weight : ℚ
deriving DecidableEq, Repr

/-- `_normalize_section_key`. The Python version first lowercases and strips
the key; embedded inputs are taken as already stripped/lowercased. -/
def normalize_section_key (s : String) : String :=
  if s = "cashflow" ∨ s = "cash_flow" ∨ s = "cash flow" then "cash_flow"
  else if s = "balance" ∨ s = "balance sheet" then "balance"
  else if s = "income" ∨ s = "income statement" then "income"
  else if s = "" then "unknown" else s

/-- `_clean_weight_numbers`: skip `None` values, reject values outside
`[0, 100]`. (The `"Weights must be numbers."` branch is unreachable in a
typed embedding where every present value is a rational.) -/
def clean_weight_numbers : List (String × Option ℚ) → Except WErr (List (String × ℚ))
  | [] => .ok []
  | (_, none) :: rest => clean_weight_numbers rest
  | (k, some v) :: rest =>
      if v < 0 ∨ 100 < v then .error "Weights must be between 0 and 100."
      else (clean_weight_numbers rest).map (fun tail => (k, v) :: tail)

/-- `_normalize_weight_map`: clean, then divide every value by the total;
error when the total is not positive. -/
def normalize_weight_map (weights : List (String × Option ℚ)) :
    Except WErr (Dict ℚ) := do
  let cleaned ← clean_weight_numbers weights
  let total := sumValues cleaned
  if total ≤ 0 then throw "Total weight must be greater than zero."
  else pure (cleaned.map (fun p => (p.1, p.2 / total)))

/-- `_normalize_weights` over a `metrics` list: divide each weight by the
list total (the returned dict deduplicates repeated metric names, keeping
the last value, exactly like the Python dict comprehension). -/
def normalize_weights (metrics : List MetricWeightInput) : Except WErr (Dict ℚ) :=
  let total := (metrics.map (·.weight)).sum
  if total ≤ 0 then .error "Total weight must be greater than zero."
  else .ok (dictOf (metrics.map fun m => (m.metric_name, m.weight / total)))

/-- `_prepare_mapping_defaults`: raw default weights clamped at 0 and their
normalization; returns `(default_weight_raw, normalized_default_weights)`. -/
def prepare_mapping_defaults (entries : List MetricMappingEntry) :
    Except WErr (Dict ℚ × Dict ℚ) :=
  if entries = [] then .error "Metric mapping is empty."
  else
    let default_weight_raw :=
      dictOf (entries.map fun e => (e.metric_name, max e.default_weight 0))
    let total := sumValues default_weight_raw
    if total ≤ 0 then .error "Total weight from mapping must be greater than zero."
    else .ok (default_weight_raw, default_weight_raw.map fun p => (p.1, p.2 / total))

/-- The `metrics_by_section` grouping of `_metric_weights_from_section`:
catalog metrics whose canonical section is `sec`, in catalog order. -/
def metrics_by_section_of (entries : List MetricMappingEntry) (sec : String) :
    List String :=
  (entries.filter (fun e => normalize_section_key e.msection = sec)).map (·.metric_name)

/-- One iteration of the section loop in `_metric_weights_from_section`:
distribute the section's weight over its metrics proportionally to their
raw catalog default weights. -/
def add_section_share (entries : List MetricMappingEntry)
    (default_weight_raw nsw : Dict ℚ) (mw : Dict ℚ) (sec : String) :
    Except WErr (Dict ℚ) :=
  let metrics := metrics_by_section_of entries sec
  if metrics = [] then .ok mw
  else
    let sec_default_sum := (metrics.map fun m => (dlookup m default_weight_raw).getD 0).sum
    if sec_default_sum ≤ 0 then
      .error ("Default weights must be positive for section " ++ sec ++ ".")
    else
      let section_weight := (dlookup sec nsw).getD 0
      .ok (metrics.foldl (fun acc m =>
        upsert m ((dlookup m acc).getD 0 +
          section_weight * ((dlookup m default_weight_raw).getD 0 / sec_default_sum)) acc) mw)

/-- `_metric_weights_from_section`. -/
def metric_weights_from_section (section_weights : List (String × Option ℚ))
    (entries : List MetricMappingEntry) (default_weight_raw : Dict ℚ) :
    Except WErr (Dict ℚ) := do
  let nsw ← normalize_weight_map
    (dictOf (section_weights.map fun p => (normalize_section_key p.1, p.2)))
  let mw0 : Dict ℚ := dictOf (entries.map fun e => (e.metric_name, 0))
  let mw ← (["balance", "income", "cash_flow"]).foldlM
    (add_section_share entries default_weight_raw nsw) mw0
  normalize_weight_map (mw.map fun p => (p.1, some p.2))

/-- `_resolve_metric_weight_map`. -/
def resolve_metric_weight_map (weight_scope : Option String)
    (weights_json : Option (List (String × Option ℚ)))
    (entries : List MetricMappingEntry)
    (default_weight_raw normalized_default_weights : Dict ℚ) :
    Except WErr (Dict ℚ) :=
  match weights_json with
  | none => .ok normalized_default_weights
  | some wj =>
    match weight_scope with
    | none => .ok normalized_default_weights
    | some scope =>
      if scope = "metric" then do
        let cleaned ← clean_weight_numbers wj
        let metric_names := entries.map (·.metric_name)
        let unknown := (cleaned.map (·.1)).filter (fun k => ¬ k ∈ metric_names)
        if unknown ≠ [] then
          throw ("Unknown metrics in weights: " ++ String.intercalate ", " unknown)
        else
          normalize_weight_map (dictOf (entries.map fun e =>
            (e.metric_name, some ((dlookup e.metric_name cleaned).getD 0))))
      else if scope = "section" then
        metric_weights_from_section wj entries default_weight_raw
      else .error "weight_scope must be 'metric' or 'section'."

/-! ### Normalization & scoring engine (`calculate_wsm_score`) -/

/-- `metric_type_by_id` (metric ids are identified with names). -/
def metric_type_by_name (metrics : List MetricWeightInput) : Dict MType :=
  dictOf (metrics.map fun m => (m.metric_name, m.type))

/-- Type lookup with the `"benefit"` default used by
`_compute_single_ticker_score`; in `calculate_wsm_score` the key is always
present for requested metrics, so the default is never exercised there. -/
def typeOf (metrics : List MetricWeightInput) (name : String) : MType :=
  (dlookup name (metric_type_by_name metrics)).getD .benefit

/-- `adjusted_value = abs(x) if metric_type == "cost" and x < 0 else x`. -/
def adjustValue (t : MType) (x : ℚ) : ℚ := if t = .cost ∧ x < 0 then -x else x

/-- `ticker_metric_values.setdefault(ticker, {})[metric_id] = v`. -/
def upsertInner (t m : String) (v : ℚ) : Dict (Dict ℚ) → Dict (Dict ℚ)
  | [] => [(t, [(m, v)])]
  | (t', inner) :: d =>
      if t' = t then (t, upsert m v inner) :: d else (t', inner) :: upsertInner t m v d

/-- The row loop building `ticker_metric_values` (null values skipped). -/
def build_ticker_metric_values (tys : String → MType) (rows : List Row) :
    Dict (Dict ℚ) :=
  rows.foldl (fun acc r =>
    match r with
    | (_, _, none) => acc
    | (tk, mid, some x) => upsertInner tk mid (adjustValue (tys mid) x) acc) []

/-- The `values_by_metric[mid]` list: adjusted non-null values of metric `m`
over all fetched rows, in row order. -/
def metric_column (tys : String → MType) (rows : List Row) (m : String) : List ℚ :=
  rows.filterMap fun r =>
    if r.2.1 = m then (r.2.2).map (fun x => adjustValue (tys m) x) else none

/-- `max_by_metric.get(mid, 0)`. -/
def max_by_metric (tys : String → MType) (rows : List Row) (m : String) : ℚ :=
  ((metric_column tys rows m).max?).getD 0

/-- `min_by_metric.get(mid, 0)`. -/
def min_by_metric (tys : String → MType) (rows : List Row) (m : String) : ℚ :=
  ((metric_column tys rows m).min?).getD 0

/-- Normalization of one raw (adjusted) value against the per-metric basis
(`calculate_wsm_score` lines 441-451, repeated verbatim in the scorecard and
simulation paths): benefit ⇒ `clamp01(value / max)` with `0` when the max is
`0`; cost ⇒ `0` when the value or the min is `0`, else `clamp01(min / value)`. -/
def normalized_value (t : MType) (minv maxv value : ℚ) : ℚ :=
  match t with
  | .benefit => clamp01 (if maxv = 0 then 0 else value / maxv)
  | .cost => if value = 0 ∨ minv = 0 then 0 else clamp01 (minv / value)

/-- `sum(weight_by_metric_id[mid] for mid in available_metric_ids)`. -/
def available_weight_sum (weights : Dict ℚ) (mvals : Dict ℚ) : ℚ :=
  (mvals.map fun p => (dlookup p.1 weights).getD 0).sum

/-- The score accumulation loop over a ticker's available metrics. -/
def ticker_score (tys : String → MType) (weights : Dict ℚ)
    (minOf maxOf : String → ℚ) (weight_divisor : ℚ) (mvals : Dict ℚ) : ℚ :=
  (mvals.map fun p =>
    ((dlookup p.1 weights).getD 0 / weight_divisor) *
      normalized_value (tys p.1) (minOf p.1) (maxOf p.1) p.2).sum

/-- `WSMRankingItem`. -/
structure RankingItem where
  ticker : String
  score : ℚ
deriving DecidableEq, Repr

/-- `DroppedTicker`. -/
structure DroppedTicker where
  ticker : String
  reason : String
  missing_metrics : Option (List String)
deriving DecidableEq, Repr

/-- `WSMScoreResponse` (without the echoed `year`). -/
structure WSMScoreOutput where
  ranking : List RankingItem
  dropped_tickers : List DroppedTicker
deriving DecidableEq, Repr

/-- Requested metrics with no value for the ticker. The Python code computes
this as an id-set difference, so the resulting name list order is
unspecified; here catalog/request order is used. -/
def missing_metrics_of (requested : List String) (mvals : Dict ℚ) : List String :=
  requested.filter (fun m => dlookup m mvals = none)

/-- One iteration of the ranking loop of `calculate_wsm_score`:
`none` = ticker silently skipped, `inl` = ranking entry, `inr` = dropped. -/
def process_ticker (policy : Policy) (requested : List String) (weights : Dict ℚ)
    (tys : String → MType) (minOf maxOf : String → ℚ) (tk : String)
    (mvals : Dict ℚ) : Option (RankingItem ⊕ DroppedTicker) :=
  let missing := missing_metrics_of requested mvals
  match policy with
  | .drop =>
      if missing ≠ [] then
        some (.inr ⟨tk, "Dropped due to missing metrics",
          if missing = [] then none else some missing⟩)
      else some (.inl ⟨tk, round6 (ticker_score tys weights minOf maxOf 1 mvals)⟩)
  | .redistribute =>
      let s := available_weight_sum weights mvals
      if s ≤ 0 then none
      else some (.inl ⟨tk, round6 (ticker_score tys weights minOf maxOf s mvals)⟩)
  | .zero => some (.inl ⟨tk, round6 (ticker_score tys weights minOf maxOf 1 mvals)⟩)

/-- Stable insertion of `a` into a list sorted (ascending) by `key`:
`a` goes before the first element whose key is not smaller — so elements
inserted later never jump over equal keys. `foldr` over the original list
therefore reproduces Python's stable `list.sort(key=...)`. -/
def insertSorted {κ : Type} [LinearOrder κ] (key : α → κ) (a : α) :
    List α → List α
  | [] => [a]
  | b :: l => if key b < key a then b :: insertSorted key a l else a :: b :: l

/-- Python's stable `list.sort(key=...)` (and, with a negated key,
`reverse=True`). -/
def sortByKey {κ : Type} [LinearOrder κ] (key : α → κ) (l : List α) : List α :=
  l.foldr (insertSorted key) []

/-- The per-ticker loop of `calculate_wsm_score`, over the tickers of
`ticker_metric_values` in insertion order. -/
def wsm_results (metrics : List MetricWeightInput) (rows : List Row)
    (policy : Policy) (w : Dict ℚ) : List (RankingItem ⊕ DroppedTicker) :=
  (build_ticker_metric_values (typeOf metrics) rows).filterMap (fun p =>
    process_ticker policy ((metrics.map (·.metric_name)).dedup) w (typeOf metrics)
      (min_by_metric (typeOf metrics) rows) (max_by_metric (typeOf metrics) rows)
      p.1 p.2)

/-- The unsorted `ranking` list accumulated by the loop. -/
def wsm_ranking0 (metrics : List MetricWeightInput) (rows : List Row)
    (policy : Policy) (w : Dict ℚ) : List RankingItem :=
  (wsm_results metrics rows policy w).filterMap (fun r => match r with
    | .inl it => some it
    | .inr _ => none)

/-- The `dropped` list accumulated by the loop. -/
def wsm_dropped (metrics : List MetricWeightInput) (rows : List Row)
    (policy : Policy) (w : Dict ℚ) : List DroppedTicker :=
  (wsm_results metrics rows policy w).filterMap (fun r => match r with
    | .inr dt => some dt
    | .inl _ => none)

/-- `ranking.sort(key=lambda item: item.score, reverse=True)` then the
optional `limit` truncation. -/
def wsm_final_ranking (metrics : List MetricWeightInput) (rows : List Row)
    (policy : Policy) (w : Dict ℚ) (limit : Option ℕ) : List RankingItem :=
  match limit with
  | none => sortByKey (fun it => -it.score) (wsm_ranking0 metrics rows policy w)
  | some n =>
      (sortByKey (fun it => -it.score) (wsm_ranking0 metrics rows policy w)).take n

/-- The pure core of `calculate_wsm_score`, taking the resolved effective
metric list and the fetched rows `(ticker, metric, value)` of the requested
year (already filtered to the requested metric ids and optional ticker
subset, as `_fetch_financial_data` does). The `DISABLED_METRICS` guard is
deployment configuration and is not modelled. -/
def calculate_wsm_score (metrics : List MetricWeightInput) (rows : List Row)
    (policy : Policy) (limit : Option ℕ) : Except WErr WSMScoreOutput := do
  if metrics = [] then throw "At least one metric is required."
  let normalized_weights ← normalize_weights metrics
  if rows = [] then throw "No financial data found for the requested year/metrics."
  if build_ticker_metric_values (typeOf metrics) rows = [] then
    throw "No usable financial data found (all values were NULL)."
  let ranking : List RankingItem :=
    wsm_final_ranking metrics rows policy normalized_weights limit
  if ranking = [] ∧ policy ≠ .drop then
    throw "No ranking could be computed for the provided parameters."
  return ⟨ranking, wsm_dropped metrics rows policy normalized_weights⟩

/-! ### Preview (`calculate_wsm_score_preview` and `_coverage_by_ticker`) -/

/-- `CoverageSummary` (`pct` already rounded to 6 decimals, as stored). -/
structure CoverageSummary where
  used : ℕ
  total : ℕ
  pct : ℚ
deriving DecidableEq, Repr

/-- Number of non-null rows of a ticker in the coverage query. -/
def coverage_used_of (rows : List Row) (tk : String) : ℕ :=
  (rows.filter (fun r => r.1 = tk ∧ r.2.2 ≠ none)).length

/-- Tickers appearing in any fetched row (null-valued rows included). -/
def tickers_of (rows : List Row) : List String := (rows.map (·.1)).dedup

/-- The summary `_coverage_by_ticker` stores for one ticker. -/
def coverage_of (rows : List Row) (total_metrics : ℕ) (tk : String) :
    CoverageSummary :=
  let used := coverage_used_of rows tk
  let pct : ℚ := if total_metrics = 0 then 0 else (used : ℚ) / total_metrics
  ⟨used, total_metrics, round6 pct⟩

/-- `_compute_confidence_label`. -/
def compute_confidence_label (pct : ℚ) : String :=
  if pct ≥ 9 / 10 then "High" else if pct ≥ 3 / 4 then "Medium" else "Low"

/-- `WSMRankingPreviewItem` (the derived `confidence` label is a function of
`coverage.pct` and is not stored separately). -/
structure PreviewItem where
  rank : ℕ
  ticker : String
  score : ℚ
  coverage : CoverageSummary
deriving DecidableEq, Repr

/-- The preview sort key: `(-score, -coverage.pct, ticker)`. -/
def preview_key (it : PreviewItem) : ℚ ×ₗ ℚ ×ₗ String :=
  toLex (-it.score, toLex (-it.coverage.pct, it.ticker))

/-- `WSMScorePreviewResponse` (ranking plus passed-through dropped list). -/
structure PreviewOutput where
  ranking : List PreviewItem
  dropped_tickers : List DroppedTicker
deriving DecidableEq, Repr

/-- The pure core of `calculate_wsm_score_preview`: `score_rows` are the
rows fetched for scoring (requested metrics / optional ticker filter), and
`coverage_rows` the separate `_coverage_by_ticker` fetch over the full
catalog metric set, with `total_metrics` catalog metrics. -/
def calculate_wsm_score_preview (metrics : List MetricWeightInput)
    (score_rows coverage_rows : List Row) (total_metrics : ℕ)
    (policy : Policy) (limit : Option ℕ) : Except WErr PreviewOutput := do
  let base ← calculate_wsm_score metrics score_rows policy limit
  let cov := fun tk =>
    if tk ∈ tickers_of coverage_rows then coverage_of coverage_rows total_metrics tk
    else ⟨0, total_metrics, 0⟩
  let items0 := base.ranking.map (fun it =>
    PreviewItem.mk 0 it.ticker it.score (cov it.ticker))
  let sorted := sortByKey preview_key items0
  let items := (List.enumFrom 1 sorted).map (fun p => { p.2 with rank := p.1 })
  return ⟨items, base.dropped_tickers⟩

/-! ### Scorecard (`compute_scorecard`) -/

/-- The per-ticker aggregate of the scorecard's `compute_for_ticker`
(`total_score` rounded to 6 decimals, `coverage_pct` unrounded, and the
`section_totals`; the per-metric detail rows and section weight shares are
not needed by any claim and are omitted). -/
structure TickerComputed where
  total_score : ℚ
  coverage_used : ℕ
  coverage_pct : ℚ
  balance : ℚ
  income : ℚ
  cash_flow : ℚ
deriving DecidableEq, Repr

/-- The metric loop of `compute_for_ticker`: accumulates
`(used_count, total_score, balance, income, cash_flow)` over the catalog
entries in catalog order. -/
def scorecard_fold (weights : Dict ℚ) (weight_divisor : ℚ)
    (minOf maxOf : String → ℚ) (mvals : Dict ℚ)
    (entries : List MetricMappingEntry) : ℕ × ℚ × ℚ × ℚ × ℚ :=
  entries.foldl (fun acc e =>
    let (used, total, bal, inc, cf) := acc
    match dlookup e.metric_name mvals with
    | none => (used, total, bal, inc, cf)
    | some v =>
        let normalized := normalized_value e.type (minOf e.metric_name)
          (maxOf e.metric_name) v
        let weight_share := (dlookup e.metric_name weights).getD 0 / weight_divisor
        let contribution := weight_share * normalized
        let sec := normalize_section_key e.msection
        ((used + 1 : ℕ), total + contribution,
          bal + (if sec = "balance" then contribution else 0),
          inc + (if sec = "income" then contribution else 0),
          cf + (if sec = "cash_flow" then contribution else 0))) (0, 0, 0, 0, 0)

/-- `compute_for_ticker` (ranking variant, `include_metrics=False`):
`none` when the ticker is excluded by the missing policy. -/
def compute_for_ticker (entries : List MetricMappingEntry) (weights : Dict ℚ)
    (policy : Policy) (minOf maxOf : String → ℚ) (total_metrics : ℕ)
    (mvals : Dict ℚ) : Option TickerComputed :=
  let requested := (entries.map (·.metric_name)).dedup
  let missing := missing_metrics_of requested mvals
  if policy = .drop ∧ missing ≠ [] then none
  else
    let divisorOpt : Option ℚ :=
      if policy = .redistribute then
        let s := available_weight_sum weights mvals
        if s ≤ 0 then none else some s
      else some 1
    divisorOpt.map (fun weight_divisor =>
      let (used, total, bal, inc, cf) :=
        scorecard_fold weights weight_divisor minOf maxOf mvals entries
      { total_score := round6 total
        coverage_used := used
        coverage_pct := if total_metrics = 0 then 0 else (used : ℚ) / total_metrics
        balance := bal
        income := inc
        cash_flow := cf })

/-- The scorecard ranking sort key:
`(-total_score, -coverage_pct, -balance, -income, -cash_flow, ticker)`. -/
def scorecard_key (p : String × TickerComputed) :
    ℚ ×ₗ ℚ ×ₗ ℚ ×ₗ ℚ ×ₗ ℚ ×ₗ String :=
  toLex (-(p.2.total_score), toLex (-(p.2.coverage_pct),
    toLex (-(p.2.balance), toLex (-(p.2.income), toLex (-(p.2.cash_flow), p.1)))))

/-- The ranking block of `compute_scorecard`: score every ticker that has
data, keep the eligible ones, sort by the scorecard tie-breaker. -/
def scorecard_ranking (entries : List MetricMappingEntry)
    (effective_weights : Dict ℚ) (rows : List Row) (policy : Policy) :
    List (String × TickerComputed) :=
  let tys := fun name => (dlookup name (dictOf (entries.map fun e =>
    (e.metric_name, e.type)))).getD .benefit
  let tv := build_ticker_metric_values tys rows
  let minOf := min_by_metric tys rows
  let maxOf := max_by_metric tys rows
  let total_metrics := ((entries.map (·.metric_name)).dedup).length
  let data := tv.filterMap (fun p =>
    (compute_for_ticker entries effective_weights policy minOf maxOf
      total_metrics p.2).map (fun c => (p.1, c)))
  sortByKey scorecard_key data

/-- `rank = next(idx + 1 for idx, (t, _) in enumerate(ranking_data) if t == ticker)`. -/
def scorecard_rank_of (sorted : List (String × TickerComputed)) (tk : String) :
    Option ℕ :=
  (sorted.findIdx? (fun p => p.1 = tk)).map (· + 1)

/-! ### Simulation (`_compute_single_ticker_score`, `run_simulation`) -/

/-- The target ticker's own adjusted values (the `if t == ticker` branch of
the row loop in `_compute_single_ticker_score`). -/
def single_ticker_values (tys : String → MType) (rows : List Row)
    (ticker : String) : Dict ℚ :=
  rows.foldl (fun acc r =>
    match r with
    | (tk, mid, some x) =>
        if tk = ticker then upsert mid (adjustValue (tys mid) x) acc else acc
    | (_, _, none) => acc) []

/-- Apply simulation overrides to the target's values only (metric names
outside the metric set are ignored); `values_by_metric` — and hence the
min/max basis — is deliberately left untouched. -/
def apply_overrides (names : List String) (tys : String → MType)
    (overrides : Option (Dict ℚ)) (tv : Dict ℚ) : Dict ℚ :=
  match overrides with
  | none => tv
  | some ov => ov.foldl (fun acc p =>
      if p.1 ∈ names then upsert p.1 (adjustValue (tys p.1) p.2) acc else acc) tv

/-- The pure core of `_compute_single_ticker_score`; `none` models every
`return None` branch (no metrics, non-positive total weight, no rows, no
data for the ticker, dropped by policy, zero redistributable weight). -/
def compute_single_ticker_score (metrics : List MetricWeightInput)
    (rows : List Row) (ticker : String) (policy : Policy)
    (overrides : Option (Dict ℚ)) : Option ℚ :=
  if metrics = [] then none
  else
    let total_weight := (metrics.map (·.weight)).sum
    if total_weight ≤ 0 then none
    else
      let normalized_weights :=
        dictOf (metrics.map fun m => (m.metric_name, m.weight / total_weight))
      let tys := typeOf metrics
      if rows = [] then none
      else
        let tv0 := single_ticker_values tys rows ticker
        let tv := apply_overrides (metrics.map (·.metric_name)) tys overrides tv0
        if tv = [] then none
        else
          let requested := (metrics.map (·.metric_name)).dedup
          let minOf := min_by_metric tys rows
          let maxOf := max_by_metric tys rows
          let missing := missing_metrics_of requested tv
          match policy with
          | .drop =>
              if missing ≠ [] then none
              else some (round6 (ticker_score tys normalized_weights minOf maxOf 1 tv))
          | .redistribute =>
              let s := available_weight_sum normalized_weights tv
              if s ≤ 0 then none
              else some (round6 (ticker_score tys normalized_weights minOf maxOf s tv))
          | .zero =>
              some (round6 (ticker_score tys normalized_weights minOf maxOf 1 tv))

/-- `_get_metric_raw_value` without overrides: the first stored row for
(ticker, metric), its raw (unadjusted) value, or `none`. -/
def get_metric_raw_value (rows : List Row) (ticker metric : String) : Option ℚ :=
  match rows.find? (fun r => r.1 = ticker ∧ r.2.1 = metric) with
  | none => none
  | some r => r.2.2

/-- `MetricOverride` (`value` is the requested percent delta; the schema
places no bounds on it). -/
structure MetricOverride where
  metric_name : String
  value : ℚ
deriving DecidableEq, Repr

/-- The scores and delta of a `SimulationResponse`. -/
structure SimulationResult where
  baseline_score : Option ℚ
  simulated_score : Option ℚ
  delta : Option ℚ
deriving DecidableEq, Repr

/-- The override dict passed to the simulated pass:
`simulated_raw = baseline_raw × (1 + percent/100)`, skipping overrides whose
baseline raw value is missing; `none` when there are no effective overrides
(the `baseline_raw_cache` only memoizes the pure fetch and is dropped). -/
def build_overrides_dict (rows : List Row) (ticker : String)
    (effective : List MetricOverride) : Option (Dict ℚ) :=
  if effective = [] then none
  else some (effective.foldl (fun d o =>
    match get_metric_raw_value rows ticker o.metric_name with
    | none => d
    | some base_raw => upsert o.metric_name (base_raw * (1 + o.value / 100)) d) [])

/-- The pure scoring core of `run_simulation`, after the metric scope
(overall or section) has been resolved into `metrics`: filter overrides to
the scope, compute baseline and simulated scores, and the rounded delta
(null whenever either score is unavailable). -/
def run_simulation (metrics : List MetricWeightInput) (rows : List Row)
    (ticker : String) (policy : Policy) (overrides : List MetricOverride) :
    SimulationResult :=
  let scope_names := metrics.map (·.metric_name)
  let effective := overrides.filter (fun o => o.metric_name ∈ scope_names)
  let baseline := compute_single_ticker_score metrics rows ticker policy none
  let ov := build_overrides_dict rows ticker effective
  let simulated := compute_single_ticker_score metrics rows ticker policy ov
  let delta := match baseline, simulated with
    | some b, some s => some (round6 (s - b))
    | _, _ => none
  ⟨baseline, simulated, delta⟩

/-! ### Spec-side definitions (for refinement comparisons) -/

/-- The spec's benefit formula, written exactly as the spec states it:
`normalized = clamp01(value / max)` and `0` when the max is `0`. -/
def spec_normalized_benefit (value maxv : ℚ) : ℚ :=
  if maxv = 0 then 0 else clamp01 (value / maxv)

/-- The spec's cost formula: `normalized = clamp01(min / value)` and `0`
when the value or the universe min is `0`. -/
def spec_normalized_cost (value minv : ℚ) : ℚ :=
  if value = 0 ∨ minv = 0 then 0 else clamp01 (minv / value)

/-- The scoring tail of `_compute_single_ticker_score` with the
normalization basis `(minOf, maxOf)` as an explicit parameter. Comparing
`compute_single_ticker_score` against this function instantiated with the
min/max of the *raw* universe shows the overrides never reach the basis. -/
def score_against_basis (metrics : List MetricWeightInput) (policy : Policy)
    (minOf maxOf : String → ℚ) (tv : Dict ℚ) : Option ℚ :=
  if metrics = [] then none
  else
    let total_weight := (metrics.map (·.weight)).sum
    if total_weight ≤ 0 then none
    else
      let normalized_weights :=
        dictOf (metrics.map fun m => (m.metric_name, m.weight / total_weight))
      let tys := typeOf metrics
      if tv = [] then none
      else
        let requested := (metrics.map (·.metric_name)).dedup
        let missing := missing_metrics_of requested tv
        match policy with
        | .drop =>
            if missing ≠ [] then none
            else some (round6 (ticker_score tys normalized_weights minOf maxOf 1 tv))
        | .redistribute =>
            let s := available_weight_sum normalized_weights tv
            if s ≤ 0 then none
            else some (round6 (ticker_score tys normalized_weights minOf maxOf s tv))
        | .zero =>
            some (round6 (ticker_score tys normalized_weights minOf maxOf 1 tv))

/-! ### Dict lemmas -/

theorem dlookup_upsert_self (k : String) (v : α) (d : Dict α) :
    dlookup k (upsert k v d) = some v := by
  induction d with
  | nil => simp [upsert, dlookup]
  | cons p d ih =>
      obtain ⟨k', v'⟩ := p
      by_cases h : k' = k <;> simp [upsert, dlookup, h, ih]

theorem dlookup_upsert_ne {k k' : String} (hk : k' ≠ k) (v : α) (d : Dict α) :
    dlookup k' (upsert k v d) = dlookup k' d := by
  induction d with
  | nil => simp [upsert, dlookup, Ne.symm hk]
  | cons p d ih =>
      obtain ⟨k'', v''⟩ := p
      by_cases h : k'' = k
      · subst h
        simp [upsert, dlookup, Ne.symm hk]
      · simp only [upsert, h, if_neg, not_false_iff, dlookup]
        by_cases h2 : k'' = k' <;> simp [h2, ih]

theorem dlookup_derase_ne {k k' : String} (hk : k' ≠ k) (d : Dict α) :
    dlookup k' (derase k d) = dlookup k' d := by
  induction d with
  | nil => simp [derase]
  | cons p d ih =>
      obtain ⟨k'', v''⟩ := p
      by_cases h : k'' = k
      · subst h
        simp [derase, dlookup, Ne.symm hk]
      · simp only [derase, h, if_neg, not_false_iff, dlookup]
        by_cases h2 : k'' = k' <;> simp [h2, ih]

theorem mem_derase_of_mem {p : String × α} (k : String) (d : Dict α)
    (hp : p ∈ derase k d) : p ∈ d := by
  induction d with
  | nil => simp [derase] at hp
  | cons q d ih =>
      obtain ⟨a, b⟩ := q
      by_cases h : a = k
      · rw [derase, if_pos h] at hp
        exact List.mem_cons_of_mem _ hp
      · rw [derase, if_neg h] at hp
        rcases List.mem_cons.1 hp with hp' | hp'
        · exact hp' ▸ List.mem_cons_self _ _
        · exact List.mem_cons_of_mem _ (ih hp')

theorem sumValues_derase (k : String) (v : ℚ) (d : Dict ℚ)
    (h : dlookup k d = some v) : sumValues d = v + sumValues (derase k d) := by
  induction d with
  | nil => simp [dlookup] at h
  | cons p d ih =>
      obtain ⟨k', v'⟩ := p
      by_cases hk : k' = k
      · simp only [dlookup, hk, if_pos] at h
        obtain rfl : v' = v := by injection h
        simp [derase, hk, sumValues]
      · simp only [dlookup, hk, if_neg, not_false_iff] at h
        simp only [derase, hk, if_neg, not_false_iff]
        simp only [sumValues, List.map_cons, List.sum_cons] at *
        rw [ih h]
        ring

theorem dkeys_upsert_sub (k : String) (v : α) (d : Dict α) :
    dkeys (upsert k v d) ⊆ k :: dkeys d := by
  induction d with
  | nil => simp [upsert, dkeys]
  | cons p d ih =>
      obtain ⟨k', v'⟩ := p
      by_cases h : k' = k
      · subst h
        rw [upsert, if_pos rfl]
        intro a ha
        simp only [dkeys, List.map_cons, List.mem_cons] at ha ⊢
        tauto
      · simp only [upsert, h, if_neg, not_false_iff, dkeys, List.map_cons]
        intro a ha
        simp only [List.mem_cons] at ha ⊢
        rcases ha with ha | ha
        · simp [ha]
        · have := ih ha
          simp only [List.mem_cons] at this
          tauto

theorem dkeys_upsert_nodup (k : String) (v : α) (d : Dict α)
    (h : (dkeys d).Nodup) : (dkeys (upsert k v d)).Nodup := by
  induction d with
  | nil => simp [upsert, dkeys]
  | cons p d ih =>
      obtain ⟨k', v'⟩ := p
      simp only [dkeys, List.map_cons, List.nodup_cons] at h
      by_cases hk : k' = k
      · subst hk
        simpa [upsert, dkeys, List.nodup_cons] using h
      · simp only [upsert, hk, if_neg, not_false_iff, dkeys, List.map_cons,
          List.nodup_cons]
        refine ⟨fun hmem => ?_, ih h.2⟩
        have := dkeys_upsert_sub k v d hmem
        simp only [List.mem_cons] at this
        rcases this with h1 | h1
        · exact hk h1
        · exact h.1 h1

theorem dlookup_isSome_of_mem {p : String × α} (d : Dict α) (hp : p ∈ d) :
    (dlookup p.1 d).isSome := by
  induction d with
  | nil => simp at hp
  | cons q d ih =>
      rcases List.mem_cons.1 hp with h | h
      · subst h
        simp [dlookup]
      · by_cases hk : q.1 = p.1
        · obtain ⟨a, b⟩ := q
          simp_all [dlookup]
        · obtain ⟨a, b⟩ := q
          simp only [dlookup, hk, if_neg, not_false_iff] at *
          exact ih h

/-- Values of a dict built by `upsert`s all satisfy a predicate preserved by it. -/
theorem dlookup_mem {k : String} {v : α} {d : Dict α}
    (h : dlookup k d = some v) : (k, v) ∈ d := by
  induction d with
  | nil => simp [dlookup] at h
  | cons p d ih =>
      obtain ⟨k', v'⟩ := p
      by_cases hk : k' = k
      · subst hk
        simp only [dlookup, if_pos rfl] at h
        obtain rfl : v' = v := by injection h
        exact List.mem_cons_self _ _
      · simp only [dlookup, hk, if_neg, not_false_iff] at h
        exact List.mem_cons_of_mem _ (ih h)

/-- Sum of looked-up values over distinct keys is at most the total value sum,
for a dict with non-negative values. -/
theorem sum_dlookup_le_sumValues (d : Dict ℚ) (hd : ∀ p ∈ d, 0 ≤ p.2)
    (ks : List String) (hks : ks.Nodup) :
    (ks.map (fun k => (dlookup k d).getD 0)).sum ≤ sumValues d := by
  induction ks generalizing d with
  | nil =>
      have : 0 ≤ sumValues d := by
        have := List.sum_nonneg (l := d.map (·.2)) ?_
        · simpa [sumValues] using this
        · intro x hx
          obtain ⟨p, hp, rfl⟩ := List.mem_map.1 hx
          exact hd p hp
      simpa using this
  | cons k ks ih =>
      simp only [List.nodup_cons] at hks
      simp only [List.map_cons, List.sum_cons]
      cases hv : dlookup k d with
      | none =>
          simp only [Option.getD_none]
          have := ih d hd hks.2
          linarith
      | some v =>
          simp only [Option.getD_some]
          have herase : sumValues d = v + sumValues (derase k d) :=
            sumValues_derase k v d hv
          have hmap : (ks.map (fun k' => (dlookup k' d).getD 0)) =
              (ks.map (fun k' => (dlookup k' (derase k d)).getD 0)) := by
            apply List.map_congr_left
            intro k' hk'
            have : k' ≠ k := fun h => hks.1 (h ▸ hk')
            rw [dlookup_derase_ne this]
          rw [hmap]
          have := ih (derase k d) (fun p hp => hd p (mem_derase_of_mem k d hp)) hks.2
          linarith

/-! ### clamp and Python rounding lemmas -/

theorem clamp01_nonneg (x : ℚ) : 0 ≤ clamp01 x := le_max_left _ _

theorem clamp01_le_one (x : ℚ) : clamp01 x ≤ 1 := by
  simp only [clamp01, max_le_iff]
  exact ⟨zero_le_one, min_le_left _ _⟩

theorem clamp01_mono {x y : ℚ} (h : x ≤ y) : clamp01 x ≤ clamp01 y := by
  simp only [clamp01]
  exact max_le_max le_rfl (min_le_min le_rfl h)

theorem clamp01_of_one_le {x : ℚ} (h : 1 ≤ x) : clamp01 x = 1 := by
  simp only [clamp01]
  rw [min_eq_left h, max_eq_right zero_le_one]

theorem pyRound_ge_floor (q : ℚ) : ⌊q⌋ ≤ pyRound q := by
  unfold pyRound
  split_ifs <;> omega

theorem pyRound_le_floor_add_one (q : ℚ) : pyRound q ≤ ⌊q⌋ + 1 := by
  unfold pyRound
  split_ifs <;> omega

theorem pyRound_mono {a b : ℚ} (h : a ≤ b) : pyRound a ≤ pyRound b := by
  rcases lt_or_eq_of_le (Int.floor_le_floor h) with hf | hf
  · calc pyRound a ≤ ⌊a⌋ + 1 := pyRound_le_floor_add_one a
      _ ≤ ⌊b⌋ := by omega
      _ ≤ pyRound b := pyRound_ge_floor b
  · unfold pyRound
    rw [hf]
    have hfrac : a - (⌊b⌋ : ℚ) ≤ b - (⌊b⌋ : ℚ) := by linarith
    split_ifs <;> first
      | omega
      | (exfalso; linarith)

theorem pyRound_nonneg {q : ℚ} (h : 0 ≤ q) : 0 ≤ pyRound q := by
  have : (0 : ℤ) ≤ ⌊q⌋ := by
    rw [Int.le_floor]
    simpa using h
  have := pyRound_ge_floor q
  omega

theorem round6_nonneg {q : ℚ} (h : 0 ≤ q) : 0 ≤ round6 q := by
  have := pyRound_nonneg (q := q * 1000000) (by positivity)
  unfold round6
  positivity

theorem round6_mono {a b : ℚ} (h : a ≤ b) : round6 a ≤ round6 b := by
  unfold round6
  have : pyRound (a * 1000000) ≤ pyRound (b * 1000000) :=
    pyRound_mono (by linarith)
  have hcast : (pyRound (a * 1000000) : ℚ) ≤ (pyRound (b * 1000000) : ℚ) := by
    exact_mod_cast this
  linarith

theorem round6_le_one {q : ℚ} (h : q ≤ 1) : round6 q ≤ 1 := by
  unfold round6
  have hq : q * 1000000 ≤ 1000000 := by linarith
  have hfl : ⌊q * 1000000⌋ ≤ 1000000 := by
    rw [Int.floor_le_iff]
    push_cast
    linarith
  have hpr : pyRound (q * 1000000) ≤ 1000000 := by
    by_cases heq : ⌊q * 1000000⌋ = 1000000
    · have hfr : q * 1000000 - (⌊q * 1000000⌋ : ℚ) ≤ 0 := by
        rw [heq]
        push_cast
        linarith
      unfold pyRound
      split_ifs with h1 h2 <;> first
        | omega
        | (exfalso; simp only [not_lt] at h1; linarith)
    · have := pyRound_le_floor_add_one (q * 1000000)
      omega
  calc (pyRound (q * 1000000) : ℚ) / 1000000 ≤ (1000000 : ℚ) / 1000000 := by
        apply div_le_div_of_nonneg_right ?_ (by norm_num)
        · exact_mod_cast hpr
      _ = 1 := by norm_num

theorem round6_zero : round6 0 = 0 := by norm_num [round6, pyRound]

theorem pyRound_intCast (n : ℤ) : pyRound (n : ℚ) = n := by
  simp [pyRound]

/-- Evaluation rule for `round6` at rationals that are exact multiples of
`1e-6` (every concrete score in this file is). -/
theorem round6_eval {q : ℚ} (n : ℤ) (h : q * 1000000 = (n : ℚ)) :
    round6 q = (n : ℚ) / 1000000 := by rw [round6, h, pyRound_intCast]

theorem round6_one : round6 1 = 1 := by
  rw [round6_eval 1000000 (by norm_num)]; norm_num

theorem round6_half : round6 (1 / 2) = 1 / 2 := by
  rw [round6_eval 500000 (by norm_num)]; norm_num

theorem round6_fifth : round6 (1 / 5) = 1 / 5 := by
  rw [round6_eval 200000 (by norm_num)]; norm_num

theorem round6_tenth : round6 (1 / 10) = 1 / 10 := by
  rw [round6_eval 100000 (by norm_num)]; norm_num

/-! ### More dict lemmas -/

theorem mem_upsert_sub {p : String × α} {k : String} {v : α} {d : Dict α}
    (h : p ∈ upsert k v d) : p = (k, v) ∨ p ∈ d := by
  induction d with
  | nil => simpa [upsert] using h
  | cons q d ih =>
      obtain ⟨k', v'⟩ := q
      by_cases hk : k' = k
      · rw [upsert, if_pos hk] at h
        rcases List.mem_cons.1 h with h' | h'
        · exact Or.inl h'
        · exact Or.inr (List.mem_cons_of_mem _ h')
      · rw [upsert, if_neg hk] at h
        rcases List.mem_cons.1 h with h' | h'
        · exact Or.inr (h' ▸ List.mem_cons_self _ _)
        · rcases ih h' with h'' | h''
          · exact Or.inl h''
          · exact Or.inr (List.mem_cons_of_mem _ h'')

theorem upsert_of_not_mem {k : String} (v : α) {d : Dict α}
    (h : ¬ k ∈ dkeys d) : upsert k v d = d ++ [(k, v)] := by
  induction d with
  | nil => simp [upsert]
  | cons q d ih =>
      obtain ⟨k', v'⟩ := q
      simp only [dkeys, List.map_cons, List.mem_cons] at h
      push_neg at h
      rw [upsert, if_neg (fun hh => h.1 hh.symm), ih h.2]
      simp

theorem foldl_upsert_of_nodup (l : List (String × α)) (acc : Dict α)
    (hnd : (acc.map (·.1) ++ l.map (·.1)).Nodup) :
    l.foldl (fun d kv => upsert kv.1 kv.2 d) acc = acc ++ l := by
  induction l generalizing acc with
  | nil => simp
  | cons q l ih =>
      simp only [List.foldl_cons]
      have hq : ¬ q.1 ∈ dkeys acc := by
        intro hmem
        exact List.disjoint_of_nodup_append hnd hmem (by simp)
      rw [upsert_of_not_mem q.2 hq]
      have : ((acc ++ [q]).map (·.1) ++ l.map (·.1)).Nodup := by
        simpa [List.map_append] using hnd
      rw [ih (acc ++ [q]) this]
      simp

theorem dictOf_eq_self {l : List (String × α)} (h : (l.map (·.1)).Nodup) :
    dictOf l = l := by
  have := foldl_upsert_of_nodup l [] (by simpa using h)
  simpa [dictOf] using this

theorem mem_foldl_upsert {p : String × α} (l : List (String × α)) (acc : Dict α)
    (h : p ∈ l.foldl (fun d kv => upsert kv.1 kv.2 d) acc) :
    p ∈ acc ∨ p ∈ l := by
  induction l generalizing acc with
  | nil => simpa using h
  | cons q l ih =>
      simp only [List.foldl_cons] at h
      rcases ih (upsert q.1 q.2 acc) h with h' | h'
      · rcases mem_upsert_sub h' with h'' | h''
        · exact Or.inr (by simp [h''])
        · exact Or.inl h''
      · exact Or.inr (List.mem_cons_of_mem _ h')

theorem mem_dictOf {p : String × α} {l : List (String × α)}
    (h : p ∈ dictOf l) : p ∈ l := by
  rcases mem_foldl_upsert l [] h with h' | h'
  · simp at h'
  · exact h'

theorem sumValues_map_div (l : List (String × ℚ)) (t : ℚ) :
    sumValues (l.map fun p => (p.1, p.2 / t)) = sumValues l / t := by
  induction l with
  | nil => simp [sumValues]
  | cons p l ih =>
      simp only [sumValues, List.map_cons, List.sum_cons] at *
      rw [ih]
      ring

/-- Inversion for `Except` bind. -/
theorem except_bind_ok {ε α β : Type} {e : Except ε α} {f : α → Except ε β}
    {b : β} (h : (e >>= f) = .ok b) : ∃ a, e = .ok a ∧ f a = .ok b := by
  cases e with
  | error err => simp [Bind.bind, Except.bind] at h
  | ok a => exact ⟨a, rfl, by simpa [Bind.bind, Except.bind] using h⟩

/-! ### Weight-cleaning lemmas (`_clean_weight_numbers`) -/

theorem clean_weight_numbers_ok {ws : List (String × Option ℚ)}
    {cl : List (String × ℚ)} (h : clean_weight_numbers ws = .ok cl) :
    cl = ws.filterMap (fun p => p.2.map (fun v => (p.1, v))) ∧
      ∀ p ∈ cl, 0 ≤ p.2 ∧ p.2 ≤ 100 := by
  induction ws generalizing cl with
  | nil =>
      simp only [clean_weight_numbers, Except.ok.injEq] at h
      subst h
      simp
  | cons q ws ih =>
      obtain ⟨k, v?⟩ := q
      cases v? with
      | none =>
          rw [clean_weight_numbers] at h
          obtain ⟨h1, h2⟩ := ih h
          exact ⟨by simpa [List.filterMap_cons] using h1, h2⟩
      | some v =>
          rw [clean_weight_numbers] at h
          split_ifs at h with hbad
          · push_neg at hbad
            cases htail : clean_weight_numbers ws with
            | error e => simp [htail, Except.map] at h
            | ok tail =>
                rw [htail] at h
                simp only [Except.map, Except.ok.injEq] at h
                subst h
                obtain ⟨h1, h2⟩ := ih htail
                refine ⟨by simpa [List.filterMap_cons] using h1, ?_⟩
                intro p hp
                rcases List.mem_cons.1 hp with hp' | hp'
                · subst hp'
                  exact ⟨hbad.1, hbad.2⟩
                · exact h2 p hp'

theorem clean_weight_numbers_ok_of_good {ws : List (String × Option ℚ)}
    (h : ∀ p ∈ ws, ∀ v, p.2 = some v → 0 ≤ v ∧ v ≤ 100) :
    clean_weight_numbers ws =
      .ok (ws.filterMap (fun p => p.2.map (fun v => (p.1, v)))) := by
  induction ws with
  | nil => simp [clean_weight_numbers]
  | cons q ws ih =>
      obtain ⟨k, v?⟩ := q
      cases v? with
      | none =>
          rw [clean_weight_numbers]
          rw [ih (fun p hp => h p (List.mem_cons_of_mem _ hp))]
          simp [List.filterMap_cons]
      | some v =>
          rw [clean_weight_numbers]
          have hv := h (k, some v) (List.mem_cons_self _ _) v rfl
          rw [if_neg (by push_neg; exact ⟨hv.1, hv.2⟩)]
          rw [ih (fun p hp => h p (List.mem_cons_of_mem _ hp))]
          simp [List.filterMap_cons, Except.map]

theorem clean_weight_numbers_error_of_bad {ws : List (String × Option ℚ)}
    (h : ∃ p ∈ ws, ∃ v, p.2 = some v ∧ (v < 0 ∨ 100 < v)) :
    clean_weight_numbers ws = .error "Weights must be between 0 and 100." := by
  induction ws with
  | nil => simp at h
  | cons q ws ih =>
      obtain ⟨p, hp, v, hv, hbad⟩ := h
      obtain ⟨k, v?⟩ := q
      rcases List.mem_cons.1 hp with hp' | hp'
      · subst hp'
        simp only at hv
        subst hv
        rw [clean_weight_numbers, if_pos hbad]
      · cases v? with
        | none => rw [clean_weight_numbers]; exact ih ⟨p, hp', v, hv, hbad⟩
        | some w =>
            rw [clean_weight_numbers]
            split_ifs with hw
            · rfl
            · rw [ih ⟨p, hp', v, hv, hbad⟩]
              rfl

/-! ### Weight-map normalization lemmas -/

theorem normalize_weight_map_ok {ws : List (String × Option ℚ)} {out : Dict ℚ}
    (h : normalize_weight_map ws = .ok out) :
    (∀ p ∈ out, 0 ≤ p.2) ∧ sumValues out = 1 := by
  obtain ⟨cl, hcl, hrest⟩ := except_bind_ok (by simpa [normalize_weight_map] using h)
  obtain ⟨-, hbounds⟩ := clean_weight_numbers_ok hcl
  by_cases htot : sumValues cl ≤ 0
  · simp [if_pos htot, throw, throwThe, MonadExceptOf.throw] at hrest
  · push_neg at htot
    rw [if_neg (not_le.2 htot)] at hrest
    simp only [pure, Except.pure, Except.ok.injEq] at hrest
    subst hrest
    constructor
    · intro p hp
      obtain ⟨q, hq, rfl⟩ := List.mem_map.1 hp
      have := (hbounds q hq).1
      have htot' := htot
      positivity
    · rw [sumValues_map_div, div_self (ne_of_gt htot)]

theorem normalize_weight_map_error_of_nonpos {ws : List (String × Option ℚ)}
    {cl : List (String × ℚ)} (hcl : clean_weight_numbers ws = .ok cl)
    (htot : sumValues cl ≤ 0) :
    normalize_weight_map ws = .error "Total weight must be greater than zero." := by
  simp [normalize_weight_map, hcl, Bind.bind, Except.bind, if_pos htot, throw,
    throwThe, MonadExceptOf.throw]

theorem normalize_weight_map_error_of_bad {ws : List (String × Option ℚ)}
    (h : clean_weight_numbers ws = .error "Weights must be between 0 and 100.") :
    normalize_weight_map ws = .error "Weights must be between 0 and 100." := by
  simp [normalize_weight_map, h, Bind.bind, Except.bind]

theorem normalize_weights_ok_nonneg {metrics : List MetricWeightInput}
    {out : Dict ℚ} (hw : ∀ m ∈ metrics, 0 ≤ m.weight)
    (h : normalize_weights metrics = .ok out) : ∀ p ∈ out, 0 ≤ p.2 := by
  rw [normalize_weights] at h
  split_ifs at h with htot
  push_neg at htot
  simp only [Except.ok.injEq] at h
  subst h
  intro p hp
  obtain ⟨m, hm, rfl⟩ := List.mem_map.1 (mem_dictOf hp)
  exact div_nonneg (hw m hm) (le_of_lt htot)

theorem normalize_weights_ok_sum {metrics : List MetricWeightInput}
    {out : Dict ℚ} (hnd : (metrics.map (·.metric_name)).Nodup)
    (h : normalize_weights metrics = .ok out) : sumValues out = 1 := by
  rw [normalize_weights] at h
  split_ifs at h with htot
  push_neg at htot
  simp only [Except.ok.injEq] at h
  subst h
  rw [dictOf_eq_self (by simpa using hnd)]
  have heq : (metrics.map fun m => (m.metric_name, m.weight / (metrics.map (·.weight)).sum))
      = (metrics.map fun m => (m.metric_name, m.weight)).map
          (fun p => (p.1, p.2 / (metrics.map (·.weight)).sum)) := by
    simp [List.map_map, Function.comp]
  rw [heq, sumValues_map_div]
  have hsum : sumValues (metrics.map fun m => (m.metric_name, m.weight))
      = (metrics.map (·.weight)).sum := by
    simp [sumValues, List.map_map, Function.comp_def]
  rw [hsum, div_self (ne_of_gt htot)]

theorem normalize_weights_error_of_nonpos {metrics : List MetricWeightInput}
    (htot : (metrics.map (·.weight)).sum ≤ 0) :
    normalize_weights metrics = .error "Total weight must be greater than zero." := by
  rw [normalize_weights, if_pos htot]

theorem prepare_mapping_defaults_ok {entries : List MetricMappingEntry}
    {dwr ndw : Dict ℚ} (h : prepare_mapping_defaults entries = .ok (dwr, ndw)) :
    (∀ p ∈ ndw, 0 ≤ p.2) ∧ sumValues ndw = 1 := by
  rw [prepare_mapping_defaults] at h
  simp only [] at h
  split_ifs at h with h1 h2
  push_neg at h2
  simp only [Except.ok.injEq, Prod.mk.injEq] at h
  obtain ⟨rfl, rfl⟩ := h
  constructor
  · intro p hp
    obtain ⟨q, hq, rfl⟩ := List.mem_map.1 hp
    obtain ⟨e, -, rfl⟩ := List.mem_map.1 (mem_dictOf hq)
    exact div_nonneg (le_max_right _ _) (le_of_lt h2)
  · rw [sumValues_map_div, div_self (ne_of_gt h2)]

theorem metric_weights_from_section_ok {sw : List (String × Option ℚ)}
    {entries : List MetricMappingEntry} {dwr : Dict ℚ} {out : Dict ℚ}
    (h : metric_weights_from_section sw entries dwr = .ok out) :
    (∀ p ∈ out, 0 ≤ p.2) ∧ sumValues out = 1 := by
  rw [metric_weights_from_section] at h
  obtain ⟨nsw, -, h⟩ := except_bind_ok h
  obtain ⟨mw, -, h⟩ := except_bind_ok h
  exact normalize_weight_map_ok h

theorem resolve_metric_weight_map_ok {scope : Option String}
    {wj : Option (List (String × Option ℚ))} {entries : List MetricMappingEntry}
    {dwr ndw out : Dict ℚ}
    (hdef : prepare_mapping_defaults entries = .ok (dwr, ndw))
    (h : resolve_metric_weight_map scope wj entries dwr ndw = .ok out) :
    (∀ p ∈ out, 0 ≤ p.2) ∧ sumValues out = 1 := by
  rcases wj with _ | wj
  · simp only [resolve_metric_weight_map, Except.ok.injEq] at h
    subst h
    exact prepare_mapping_defaults_ok hdef
  · rcases scope with _ | scope
    · simp only [resolve_metric_weight_map, Except.ok.injEq] at h
      subst h
      exact prepare_mapping_defaults_ok hdef
    · simp only [resolve_metric_weight_map] at h
      split_ifs at h with h1 h2
      · obtain ⟨cl, -, h⟩ := except_bind_ok h
        split_ifs at h with h3
        exact normalize_weight_map_ok h
      · exact metric_weights_from_section_ok h

/-! ### Claims C1 and C10 -/

set_option maxHeartbeats 1000000 in
/-- **C1** (counterexample). A request with *duplicate* explicit metric names
is accepted without error, yet the resolved weight map (a Python dict, so
duplicate names collapse to one key while the normalizing total counts every
list entry) sums to 1/2, not 1 — off by far more than the 1e-9 tolerance.
The full scoring call accepts the same input and returns a ranking. -/
theorem C1_counterexample :
    normalize_weights [⟨"A", .benefit, 1⟩, ⟨"A", .benefit, 1⟩] =
      .ok [("A", 1 / 2)] ∧
    calculate_wsm_score [⟨"A", .benefit, 1⟩, ⟨"A", .benefit, 1⟩]
      [("X", "A", some 5)] .zero none = .ok ⟨[⟨"X", 1 / 2⟩], []⟩ ∧
    ¬ (1 - 1 / 1000000000 ≤ sumValues [("A", (1 : ℚ) / 2)]) := by
  refine ⟨by norm_num [normalize_weights, dictOf, upsert, sumValues], ?_,
    by norm_num [sumValues]⟩
  norm_num [calculate_wsm_score, wsm_final_ranking, wsm_ranking0, wsm_dropped,
    wsm_results, normalize_weights, dictOf, upsert, sumValues,
    typeOf, metric_type_by_name, dlookup, build_ticker_metric_values, upsertInner,
    adjustValue, missing_metrics_of, process_ticker, ticker_score, normalized_value,
    clamp01, min_by_metric, max_by_metric, metric_column, sortByKey, insertSorted,
    available_weight_sum, round6_half, Bind.bind, Except.bind, pure, Except.pure,
    List.dedup_cons_of_mem, List.dedup_cons_of_not_mem, List.dedup_nil,
    List.cons_ne_nil, List.filterMap, List.max?, List.min?, List.foldl, List.foldr]

/-- **C1** (amended): for every weight source resolved without error the
resulting per-metric weight map is non-negative and sums to exactly 1 —
*provided*, for the explicit per-metric list source, that the supplied
metric names are pairwise distinct (non-negativity of explicit weights is
the pydantic `ge=0` bound) — and whenever the weights to be normalized sum
to ≤ 0 the request fails with the `InvalidInput` error
`"Total weight must be greater than zero."`. -/
theorem C1_amended :
    (∀ (ws : List (String × Option ℚ)) (out : Dict ℚ),
      normalize_weight_map ws = .ok out →
        (∀ p ∈ out, 0 ≤ p.2) ∧ sumValues out = 1) ∧
    (∀ (ws : List (String × Option ℚ)) (cl : List (String × ℚ)),
      clean_weight_numbers ws = .ok cl → sumValues cl ≤ 0 →
        normalize_weight_map ws =
          .error "Total weight must be greater than zero.") ∧
    (∀ metrics : List MetricWeightInput,
      (metrics.map (·.metric_name)).Nodup →
      (∀ m ∈ metrics, 0 ≤ m.weight) →
      ∀ out : Dict ℚ, normalize_weights metrics = .ok out →
        (∀ p ∈ out, 0 ≤ p.2) ∧ sumValues out = 1) ∧
    (∀ metrics : List MetricWeightInput,
      (metrics.map (·.weight)).sum ≤ 0 →
        normalize_weights metrics =
          .error "Total weight must be greater than zero.") ∧
    (∀ (scope : Option String) (wj : Option (List (String × Option ℚ)))
      (entries : List MetricMappingEntry) (dwr ndw out : Dict ℚ),
      prepare_mapping_defaults entries = .ok (dwr, ndw) →
      resolve_metric_weight_map scope wj entries dwr ndw = .ok out →
        (∀ p ∈ out, 0 ≤ p.2) ∧ sumValues out = 1) := by
  refine ⟨fun ws out h => normalize_weight_map_ok h,
    fun ws cl hcl htot => normalize_weight_map_error_of_nonpos hcl htot,
    fun metrics hnd hw out h =>
      ⟨normalize_weights_ok_nonneg hw h, normalize_weights_ok_sum hnd h⟩,
    fun metrics htot => normalize_weights_error_of_nonpos htot,
    fun scope wj entries dwr ndw out hdef h =>
      resolve_metric_weight_map_ok hdef h⟩

/-- Witness for `C1_amended` at concrete inputs: an inline metric-scope map
resolves to non-negative shares summing to 1, and a zero total fails. -/
theorem C1_amended_witness :
    ((∀ p ∈ [(("A" : String), (3 : ℚ) / 10), ("B", (7 : ℚ) / 10)], 0 ≤ p.2) ∧
      sumValues [(("A" : String), (3 : ℚ) / 10), ("B", (7 : ℚ) / 10)] = 1) ∧
    normalize_weights [⟨"A", .benefit, 0⟩] =
      .error "Total weight must be greater than zero." := by
  constructor
  · exact C1_amended.1 [("A", some 30), ("B", some 70)]
      [("A", 3 / 10), ("B", 7 / 10)]
      (by norm_num [normalize_weight_map, clean_weight_numbers, sumValues,
        Bind.bind, Except.bind, pure, Except.pure, Except.map])
  · exact C1_amended.2.2.2.1 [⟨"A", .benefit, 0⟩] (by norm_num)

/-- **C10**: every supplied (inline or template, metric- or section-scoped)
weight value must lie in `[0, 100]` — any out-of-range value makes the
request fail with `InvalidInput` `"Weights must be between 0 and 100."` —
and entries whose value is null are silently dropped before normalization. -/
theorem C10_weight_range_validation :
    ∀ ws : List (String × Option ℚ),
      ((∃ p ∈ ws, ∃ v, p.2 = some v ∧ (v < 0 ∨ 100 < v)) →
        clean_weight_numbers ws = .error "Weights must be between 0 and 100." ∧
        normalize_weight_map ws = .error "Weights must be between 0 and 100.") ∧
      ((∀ p ∈ ws, ∀ v, p.2 = some v → 0 ≤ v ∧ v ≤ 100) →
        clean_weight_numbers ws =
          .ok (ws.filterMap (fun p => p.2.map (fun v => (p.1, v))))) := by
  intro ws
  constructor
  · intro hbad
    have h := clean_weight_numbers_error_of_bad hbad
    exact ⟨h, normalize_weight_map_error_of_bad h⟩
  · exact clean_weight_numbers_ok_of_good

/-- Witness for `C10_weight_range_validation`: a value of 101 is rejected,
and a null entry is dropped while an in-range entry is kept. -/
theorem C10_witness :
    (clean_weight_numbers [("a", some 101), ("b", none)] =
        .error "Weights must be between 0 and 100." ∧
      normalize_weight_map [("a", some 101), ("b", none)] =
        .error "Weights must be between 0 and 100.") ∧
    clean_weight_numbers [("a", some 50), ("b", none)] = .ok [("a", 50)] := by
  constructor
  · exact (C10_weight_range_validation [("a", some 101), ("b", none)]).1
      ⟨("a", some 101), by simp, 101, rfl, Or.inr (by norm_num)⟩
  · have h := (C10_weight_range_validation [("a", some 50), ("b", none)]).2
      (by intro p hp v hv
          rcases List.mem_cons.1 hp with rfl | hp'
          · simp only [Option.some.injEq] at hv
            subst hv
            norm_num
          · rcases List.mem_cons.1 hp' with rfl | hnil
            · exact Option.noConfusion hv
            · exact absurd hnil (List.not_mem_nil _))
    simpa using h

/-! ### Claim C2 -/

theorem clamp01_zero : clamp01 0 = 0 := by
  simp [clamp01]

set_option maxHeartbeats 1000000 in
/-- **C2** (counterexample). In the universe consisting of the single
observation `AAAA.m = 0` for the benefit metric `m`, `AAAA` attains the
metric's maximum (which is `0`), yet its normalized value — and its total
score under weight 1 — is `0`, not `1.0` as the claim's final sentence
asserts unconditionally. -/
theorem C2_counterexample :
    max_by_metric (typeOf [⟨"m", .benefit, 1⟩]) [("AAAA", "m", some 0)] "m" = 0 ∧
    normalized_value .benefit
      (min_by_metric (typeOf [⟨"m", .benefit, 1⟩]) [("AAAA", "m", some 0)] "m")
      (max_by_metric (typeOf [⟨"m", .benefit, 1⟩]) [("AAAA", "m", some 0)] "m")
      0 ≠ 1 ∧
    calculate_wsm_score [⟨"m", .benefit, 1⟩] [("AAAA", "m", some 0)] .zero none =
      .ok ⟨[⟨"AAAA", 0⟩], []⟩ := by
  refine ⟨?_, ?_, ?_⟩
  · norm_num [max_by_metric, metric_column, typeOf, metric_type_by_name, dictOf,
      upsert, dlookup, adjustValue, List.filterMap, List.max?, List.foldl]
  · norm_num [max_by_metric, min_by_metric, metric_column, typeOf,
      metric_type_by_name, dictOf, upsert, dlookup, adjustValue, normalized_value,
      clamp01, List.filterMap, List.max?, List.min?, List.foldl]
  · norm_num [calculate_wsm_score, wsm_final_ranking, wsm_ranking0, wsm_dropped,
      wsm_results, normalize_weights, dictOf, upsert, sumValues,
      typeOf, metric_type_by_name, dlookup, build_ticker_metric_values, upsertInner,
      adjustValue, missing_metrics_of, process_ticker, ticker_score, normalized_value,
      clamp01, min_by_metric, max_by_metric, metric_column, sortByKey, insertSorted,
      available_weight_sum, round6_zero, Bind.bind, Except.bind, pure, Except.pure,
      List.dedup_cons_of_mem, List.dedup_cons_of_not_mem, List.dedup_nil,
      List.cons_ne_nil, List.filterMap, List.max?, List.min?, List.foldl, List.foldr]

/-- **C2** (amended): the implemented normalization agrees pointwise with
the spec's formulas (benefit: `clamp01(value/max)`, `0` when the max is `0`;
cost: `clamp01(min/value)`, `0` when the value or the min is `0`); and the
entity attaining a benefit metric's maximum gets normalized value exactly
`1.0` *provided that maximum is non-zero*, while the entity attaining a cost
metric's minimum gets exactly `1.0` *provided that minimum is non-zero*. -/
theorem C2_amended :
    (∀ minv maxv v : ℚ,
      normalized_value .benefit minv maxv v = spec_normalized_benefit v maxv) ∧
    (∀ minv maxv v : ℚ,
      normalized_value .cost minv maxv v = spec_normalized_cost v minv) ∧
    (∀ minv maxv : ℚ, maxv ≠ 0 →
      normalized_value .benefit minv maxv maxv = 1) ∧
    (∀ minv maxv : ℚ, minv ≠ 0 →
      normalized_value .cost minv maxv minv = 1) := by
  refine ⟨?_, ?_, ?_, ?_⟩
  · intro minv maxv v
    by_cases h : maxv = 0 <;>
      simp [normalized_value, spec_normalized_benefit, h, clamp01_zero]
  · intro minv maxv v
    rfl
  · intro minv maxv h
    simp only [normalized_value, if_neg h]
    rw [div_self h]
    exact clamp01_of_one_le le_rfl
  · intro minv maxv h
    simp only [normalized_value]
    rw [if_neg (by tauto), div_self h]
    exact clamp01_of_one_le le_rfl

/-- Witness for `C2_amended`: with basis max `4` the value `4` normalizes to
exactly `1`, with basis min `3` the cost value `3` normalizes to exactly
`1`, and both formula comparisons at a sample point. -/
theorem C2_amended_witness :
    normalized_value .benefit 1 4 4 = 1 ∧
    normalized_value .cost 3 9 3 = 1 ∧
    normalized_value .benefit 1 4 2 = spec_normalized_benefit 2 4 ∧
    normalized_value .cost 3 9 6 = spec_normalized_cost 6 3 :=
  ⟨C2_amended.2.2.1 1 4 (by norm_num), C2_amended.2.2.2 3 9 (by norm_num),
    C2_amended.1 1 4 2, C2_amended.2.1 3 9 6⟩

/-! ### Stable sort lemmas -/

theorem mem_insertSorted {κ : Type} [LinearOrder κ] (key : α → κ) (a x : α)
    (l : List α) : x ∈ insertSorted key a l ↔ x = a ∨ x ∈ l := by
  induction l with
  | nil => simp [insertSorted]
  | cons b l ih =>
      rw [insertSorted]
      split_ifs with hlt
      · rw [List.mem_cons, ih, List.mem_cons]
        tauto
      · exact List.mem_cons

theorem insertSorted_pairwise {κ : Type} [LinearOrder κ] (key : α → κ) (a : α)
    (l : List α) (h : l.Pairwise (fun x y => key x ≤ key y)) :
    (insertSorted key a l).Pairwise (fun x y => key x ≤ key y) := by
  induction l with
  | nil => simp [insertSorted]
  | cons b l ih =>
      rw [insertSorted]
      rw [List.pairwise_cons] at h
      split_ifs with hlt
      · rw [List.pairwise_cons]
        refine ⟨?_, ih h.2⟩
        intro y hy
        rcases (mem_insertSorted key a y l).1 hy with rfl | hy'
        · exact le_of_lt hlt
        · exact h.1 y hy'
      · rw [List.pairwise_cons]
        refine ⟨?_, List.Pairwise.cons h.1 h.2⟩
        intro y hy
        rcases List.mem_cons.1 hy with rfl | hy'
        · exact not_lt.1 hlt
        · exact le_trans (not_lt.1 hlt) (h.1 y hy')

theorem sortByKey_pairwise {κ : Type} [LinearOrder κ] (key : α → κ)
    (l : List α) : (sortByKey key l).Pairwise (fun x y => key x ≤ key y) := by
  induction l with
  | nil => simp [sortByKey]
  | cons a l ih => exact insertSorted_pairwise key a _ ih

theorem mem_sortByKey {κ : Type} [LinearOrder κ] (key : α → κ) (x : α)
    (l : List α) : x ∈ sortByKey key l ↔ x ∈ l := by
  induction l with
  | nil => simp [sortByKey]
  | cons a l ih =>
      show x ∈ insertSorted key a (sortByKey key l) ↔ _
      rw [mem_insertSorted, ih, List.mem_cons]

theorem pairwise_enumFrom {R : α → α → Prop} (l : List α) (n : ℕ)
    (h : l.Pairwise R) :
    (List.enumFrom n l).Pairwise (fun p q => R p.2 q.2) := by
  induction l generalizing n with
  | nil => simp
  | cons a l ih =>
      rw [List.enumFrom_cons, List.pairwise_cons]
      rw [List.pairwise_cons] at h
      refine ⟨?_, ih (n + 1) h.2⟩
      intro q hq
      have : q.2 ∈ l := by
        have := List.enumFrom_map_snd (n + 1) l
        rw [← this]
        exact List.mem_map_of_mem _ hq
      exact h.1 q.2 this

/-! ### Inversion of `calculate_wsm_score` -/

theorem calculate_wsm_score_ok_inv {metrics : List MetricWeightInput}
    {rows : List Row} {policy : Policy} {limit : Option ℕ} {out : WSMScoreOutput}
    (h : calculate_wsm_score metrics rows policy limit = .ok out) :
    ∃ w, normalize_weights metrics = .ok w ∧
      out.ranking = wsm_final_ranking metrics rows policy w limit ∧
      out.dropped_tickers = wsm_dropped metrics rows policy w := by
  by_cases h1 : metrics = []
  · rw [calculate_wsm_score] at h
    simp [h1, throw, throwThe, MonadExceptOf.throw, Bind.bind, Except.bind,
      pure, Except.pure] at h
  · cases hw : normalize_weights metrics with
    | error e =>
        rw [calculate_wsm_score] at h
        simp [h1, hw, throw, throwThe, MonadExceptOf.throw, Bind.bind,
          Except.bind, pure, Except.pure] at h
    | ok w =>
        rw [calculate_wsm_score] at h
        simp only [h1, if_neg, ite_false, hw, throw, throwThe,
          MonadExceptOf.throw, Bind.bind, Except.bind, pure, Except.pure] at h
        split_ifs at h with h2 h3 h4
        simp only [Except.ok.injEq] at h
        exact ⟨w, rfl, by rw [← h], by rw [← h]⟩

/-! ### Claim C4 -/

theorem string_BBB_not_lt_AAA : ¬ ("BBB" : String) < "AAA" := by
  rw [String.lt_iff_toList_lt]; decide

theorem string_AAA_lt_BBB : ("AAA" : String) < "BBB" := by
  rw [String.lt_iff_toList_lt]; decide

theorem charlist_BBB_not_lt_AAA :
    ¬ ((['B', 'B', 'B'] : List Char) < ['A', 'A', 'A']) := by decide

theorem string_AAA_ne_BBB : ("AAA" : String) ≠ "BBB" := by decide

theorem string_BBB_ne_AAA : ("BBB" : String) ≠ "AAA" := by decide

set_option maxHeartbeats 16000000 in
/-- **C4** (counterexample). One universe — two benefit metrics `m1`
(balance) and `m2` (income) with equal weight `1/2`, and two entities with
mirror-image data so that total scores and coverages tie exactly — on which
`ScorePreview` ranks `AAA` before `BBB` (its comparator falls through to the
ticker after score and coverage), while the scorecard ranking puts `BBB`
first (its comparator consults the balance subtotal first). Hence the three
modes do not order entities by the same comparator, contradicting the claim. -/
theorem C4_counterexample :
    (calculate_wsm_score_preview [⟨"m1", .benefit, 1 / 2⟩, ⟨"m2", .benefit, 1 / 2⟩]
        [("AAA", "m1", some 0), ("AAA", "m2", some 10),
         ("BBB", "m1", some 10), ("BBB", "m2", some 0)]
        [("AAA", "m1", some 0), ("AAA", "m2", some 10),
         ("BBB", "m1", some 10), ("BBB", "m2", some 0)]
        2 .zero none).map (fun o => o.ranking.map (·.ticker)) =
      .ok ["AAA", "BBB"] ∧
    (scorecard_ranking
        [⟨"m1", "balance", .benefit, 1⟩, ⟨"m2", "income", .benefit, 1⟩]
        [("m1", 1 / 2), ("m2", 1 / 2)]
        [("AAA", "m1", some 0), ("AAA", "m2", some 10),
         ("BBB", "m1", some 10), ("BBB", "m2", some 0)]
        .zero).map (·.1) = ["BBB", "AAA"] := by
  constructor
  · have hbase : calculate_wsm_score
        [⟨"m1", .benefit, 1 / 2⟩, ⟨"m2", .benefit, 1 / 2⟩]
        [("AAA", "m1", some 0), ("AAA", "m2", some 10),
         ("BBB", "m1", some 10), ("BBB", "m2", some 0)] .zero none =
        .ok ⟨[⟨"AAA", 1 / 2⟩, ⟨"BBB", 1 / 2⟩], []⟩ := by
      simp [calculate_wsm_score, wsm_final_ranking, wsm_ranking0, wsm_dropped,
        wsm_results, normalize_weights, dictOf, upsert, sumValues, typeOf,
        metric_type_by_name, dlookup, build_ticker_metric_values, upsertInner,
        adjustValue, missing_metrics_of, process_ticker, ticker_score,
        normalized_value, clamp01, min_by_metric, max_by_metric, metric_column,
        sortByKey, insertSorted, available_weight_sum, Bind.bind, Except.bind,
        pure, Except.pure, List.dedup_cons_of_mem, List.dedup_cons_of_not_mem,
        List.dedup_nil, List.cons_ne_nil, List.filterMap, List.max?, List.min?,
        List.foldl, List.foldr]
      norm_num [dlookup, Option.getD, round6_half, round6_one, round6_zero,
        List.cons_ne_nil]
    rw [calculate_wsm_score_preview, hbase]
    simp [coverage_of, coverage_used_of, tickers_of, preview_key, sortByKey,
      insertSorted, List.enumFrom, Bind.bind, Except.bind, pure, Except.pure,
      Except.map, List.filterMap, List.foldr, List.filter_cons, List.filter_nil,
      List.dedup_cons_of_mem, List.dedup_cons_of_not_mem, List.dedup_nil]
    norm_num [Prod.Lex.lt_iff, string_BBB_not_lt_AAA, charlist_BBB_not_lt_AAA,
      string_AAA_ne_BBB, string_BBB_ne_AAA, round6_one, List.enumFrom,
      List.filter_cons, List.filter_nil, coverage_of, coverage_used_of]
  · simp [scorecard_ranking, scorecard_key, compute_for_ticker,
      scorecard_fold, dictOf, upsert, dlookup, build_ticker_metric_values,
      upsertInner, adjustValue, missing_metrics_of, normalized_value, clamp01,
      min_by_metric, max_by_metric, metric_column, sortByKey, insertSorted,
      available_weight_sum, normalize_section_key,
      List.dedup_cons_of_mem, List.dedup_cons_of_not_mem, List.dedup_nil,
      List.cons_ne_nil, List.filterMap, List.max?, List.min?, List.foldl,
      List.foldr]
    norm_num [dlookup, Option.getD, round6_half, round6_zero, Prod.Lex.lt_iff,
      toLex_inj, Prod.mk.injEq, List.cons_ne_nil]

/-- **C4** (amended): the three modes use three *different* (each
deterministic) comparators. `Score` sorts by descending total score only
(stable); `ScorePreview` sorts by descending score, then descending coverage
percentage, then ascending ticker; only the scorecard ranking sorts by the
full comparator — descending score, descending coverage, descending
balance/income/cash-flow subtotals, ascending ticker — and that comparator
is a total order: any two entries with distinct tickers are strictly
ordered. -/
theorem C4_amended :
    (∀ (metrics : List MetricWeightInput) (rows : List Row) (policy : Policy)
      (limit : Option ℕ) (out : WSMScoreOutput),
      calculate_wsm_score metrics rows policy limit = .ok out →
        out.ranking.Pairwise (fun a b => b.score ≤ a.score)) ∧
    (∀ (metrics : List MetricWeightInput) (score_rows coverage_rows : List Row)
      (tm : ℕ) (policy : Policy) (limit : Option ℕ) (pout : PreviewOutput),
      calculate_wsm_score_preview metrics score_rows coverage_rows tm policy
          limit = .ok pout →
        pout.ranking.Pairwise (fun a b => preview_key a ≤ preview_key b)) ∧
    (∀ (entries : List MetricMappingEntry) (ew : Dict ℚ) (rows : List Row)
      (policy : Policy),
      (scorecard_ranking entries ew rows policy).Pairwise
        (fun a b => scorecard_key a ≤ scorecard_key b)) ∧
    (∀ p q : String × TickerComputed, p.1 ≠ q.1 →
      scorecard_key p < scorecard_key q ∨ scorecard_key q < scorecard_key p) := by
  refine ⟨?_, ?_, ?_, ?_⟩
  · intro metrics rows policy limit out h
    obtain ⟨w, -, hrank, -⟩ := calculate_wsm_score_ok_inv h
    rw [hrank]
    have hsorted := sortByKey_pairwise (fun it : RankingItem => -it.score)
      (wsm_ranking0 metrics rows policy w)
    have hsorted' := hsorted.imp (fun {a b} hab => neg_le_neg_iff.1 hab)
    cases limit with
    | none =>
        simp only [wsm_final_ranking]
        exact hsorted'
    | some n =>
        simp only [wsm_final_ranking]
        exact hsorted'.sublist (List.take_sublist n _)
  · intro metrics score_rows coverage_rows tm policy limit pout h
    rw [calculate_wsm_score_preview] at h
    obtain ⟨base, -, h⟩ := except_bind_ok h
    simp only [pure, Except.pure, Except.ok.injEq] at h
    subst h
    simp only []
    rw [List.pairwise_map]
    have hsorted := sortByKey_pairwise preview_key
      (base.ranking.map (fun it => PreviewItem.mk 0 it.ticker it.score
        (if it.ticker ∈ tickers_of coverage_rows then
          coverage_of coverage_rows tm it.ticker else ⟨0, tm, 0⟩)))
    have := pairwise_enumFrom _ 1 hsorted
    exact this.imp (fun {p q} hpq => hpq)
  · intro entries ew rows policy
    exact sortByKey_pairwise scorecard_key _
  · intro p q hpq
    rcases lt_trichotomy (scorecard_key p) (scorecard_key q) with h | h | h
    · exact Or.inl h
    · exfalso
      apply hpq
      have := congrArg (fun k => (ofLex (ofLex (ofLex (ofLex (ofLex k).2).2).2).2).2) h
      simpa [scorecard_key] using this
    · exact Or.inr h

set_option maxHeartbeats 1000000 in
/-- Witness for `C4_amended` at a concrete two-entity universe. -/
theorem C4_amended_witness :
    ∃ out, calculate_wsm_score [⟨"m", .benefit, 1⟩]
        [("X", "m", some 10), ("Y", "m", some 5)] .zero none = .ok out ∧
      out.ranking.Pairwise (fun a b => b.score ≤ a.score) := by
  have hout : calculate_wsm_score [⟨"m", .benefit, 1⟩]
      [("X", "m", some 10), ("Y", "m", some 5)] .zero none =
      .ok ⟨[⟨"X", 1⟩, ⟨"Y", 1 / 2⟩], []⟩ := by
    simp [calculate_wsm_score, wsm_final_ranking, wsm_ranking0, wsm_dropped,
      wsm_results, normalize_weights, dictOf, upsert, sumValues, typeOf,
      metric_type_by_name, dlookup, build_ticker_metric_values, upsertInner,
      adjustValue, missing_metrics_of, process_ticker, ticker_score,
      normalized_value, clamp01, min_by_metric, max_by_metric, metric_column,
      sortByKey, insertSorted, available_weight_sum, Bind.bind, Except.bind,
      pure, Except.pure, List.dedup_cons_of_mem, List.dedup_cons_of_not_mem,
      List.dedup_nil, List.cons_ne_nil, List.filterMap, List.max?, List.min?,
      List.foldl, List.foldr]
    norm_num [dlookup, Option.getD, round6_half, round6_one, List.cons_ne_nil]
  exact ⟨_, hout, C4_amended.1 _ _ _ _ _ hout⟩

/-! ### Claim C3: the simulation basis is override-independent -/

/-- `_compute_single_ticker_score` factors through `score_against_basis`:
the basis arguments are `min_by_metric`/`max_by_metric` over the raw fetched
rows, and the overrides reach the computation only through the target's own
value dict. -/
theorem compute_single_ticker_decomp (metrics : List MetricWeightInput)
    (rows : List Row) (ticker : String) (policy : Policy)
    (ov : Option (Dict ℚ)) (hrows : rows ≠ []) :
    compute_single_ticker_score metrics rows ticker policy ov =
      score_against_basis metrics policy (min_by_metric (typeOf metrics) rows)
        (max_by_metric (typeOf metrics) rows)
        (apply_overrides (metrics.map (·.metric_name)) (typeOf metrics) ov
          (single_ticker_values (typeOf metrics) rows ticker)) := by
  rw [compute_single_ticker_score, score_against_basis]
  simp only [if_neg hrows]

/-- Applying overrides leaves every metric they do not name untouched. -/
theorem apply_overrides_lookup_of_not_mem (names : List String)
    (tys : String → MType) (ovd : Dict ℚ) (tv : Dict ℚ) (m : String)
    (hm : ∀ p ∈ ovd, p.1 ≠ m) :
    dlookup m (apply_overrides names tys (some ovd) tv) = dlookup m tv := by
  rw [apply_overrides]
  induction ovd generalizing tv with
  | nil => rfl
  | cons p ovd ih =>
      rw [List.foldl_cons]
      have hp : p.1 ≠ m := hm p (List.mem_cons_self _ _)
      have htail : ∀ q ∈ ovd, q.1 ≠ m := fun q hq => hm q (List.mem_cons_of_mem _ hq)
      by_cases hmem : p.1 ∈ names
      · rw [if_pos hmem]
        rw [ih _ htail, dlookup_upsert_ne hp.symm]
      · rw [if_neg hmem]
        exact ih _ htail

set_option maxHeartbeats 400000 in
/-- **C3**: the per-metric min/max basis used by the simulated pass is
computed from the unmodified raw values of the full universe. Formally:
(1) for any override set, `_compute_single_ticker_score` equals the
basis-parametric scorer applied to the basis computed from the *raw* rows —
the overrides appear only in the target's own value dict, so the basis (and
hence any other entity's normalized value against it) is identical between
the baseline pass (`overrides = none`) and the simulated pass; and
(2) overrides replace only the metrics they name. -/
theorem C3_basis_not_polluted :
    (∀ (metrics : List MetricWeightInput) (rows : List Row) (ticker : String)
      (policy : Policy) (ov : Option (Dict ℚ)), rows ≠ [] →
      compute_single_ticker_score metrics rows ticker policy ov =
        score_against_basis metrics policy
          (min_by_metric (typeOf metrics) rows)
          (max_by_metric (typeOf metrics) rows)
          (apply_overrides (metrics.map (·.metric_name)) (typeOf metrics) ov
            (single_ticker_values (typeOf metrics) rows ticker))) ∧
    (∀ (names : List String) (tys : String → MType) (ovd tv : Dict ℚ)
      (m : String), (∀ p ∈ ovd, p.1 ≠ m) →
      dlookup m (apply_overrides names tys (some ovd) tv) = dlookup m tv) :=
  ⟨fun metrics rows ticker policy ov hrows =>
      compute_single_ticker_decomp metrics rows ticker policy ov hrows,
    fun names tys ovd tv m hm =>
      apply_overrides_lookup_of_not_mem names tys ovd tv m hm⟩

/-- Witness for `C3_basis_not_polluted`: a concrete one-row universe with an
override on another metric. -/
theorem C3_witness :
    compute_single_ticker_score [⟨"m", MType.benefit, 1⟩]
        [("X", "m", some 5)] "X" .zero (some [("q", 7)]) =
      score_against_basis [⟨"m", MType.benefit, 1⟩] .zero
        (min_by_metric (typeOf [⟨"m", MType.benefit, 1⟩]) [("X", "m", some 5)])
        (max_by_metric (typeOf [⟨"m", MType.benefit, 1⟩]) [("X", "m", some 5)])
        (apply_overrides ["m"] (typeOf [⟨"m", MType.benefit, 1⟩])
          (some [("q", 7)])
          (single_ticker_values (typeOf [⟨"m", MType.benefit, 1⟩])
            [("X", "m", some 5)] "X")) ∧
    dlookup "m" (apply_overrides ["m"] (typeOf [⟨"m", MType.benefit, 1⟩])
        (some [("q", 7)])
        (single_ticker_values (typeOf [⟨"m", MType.benefit, 1⟩])
          [("X", "m", some 5)] "X")) =
      dlookup "m" (single_ticker_values (typeOf [⟨"m", MType.benefit, 1⟩])
        [("X", "m", some 5)] "X") := by
  constructor
  · exact C3_basis_not_polluted.1 [⟨"m", MType.benefit, 1⟩] [("X", "m", some 5)]
      "X" .zero (some [("q", 7)]) (by simp)
  · refine C3_basis_not_polluted.2 ["m"] (typeOf [⟨"m", MType.benefit, 1⟩])
      [("q", 7)] _ "m" ?_
    intro p hp
    rcases List.mem_cons.1 hp with rfl | h
    · decide
    · exact absurd h (List.not_mem_nil _)

/-! ### Claim C7: zero-delta simulation reproduces the baseline -/

theorem upsert_eq_self {k : String} {v : α} {d : Dict α}
    (h : dlookup k d = some v) : upsert k v d = d := by
  induction d with
  | nil => simp [dlookup] at h
  | cons p d ih =>
      obtain ⟨k', v'⟩ := p
      by_cases hk : k' = k
      · subst hk
        rw [dlookup, if_pos rfl] at h
        obtain rfl : v' = v := by injection h
        rw [upsert, if_pos rfl]
      · rw [dlookup, if_neg hk] at h
        rw [upsert, if_neg hk, ih h]

theorem compute_single_ticker_score_nil_rows (metrics : List MetricWeightInput)
    (ticker : String) (policy : Policy) (ov : Option (Dict ℚ)) :
    compute_single_ticker_score metrics [] ticker policy ov = none := by
  simp [compute_single_ticker_score]

/-- Folding rows that never mention `(ticker, m)` cannot change the entry of
`m` in the target's value dict. -/
theorem stv_fold_lookup_no_match (tys : String → MType) (ticker m : String)
    (rows : List Row) (acc : Dict ℚ)
    (h : ∀ r ∈ rows, ¬ (r.1 = ticker ∧ r.2.1 = m)) :
    dlookup m (rows.foldl (fun acc r =>
      match r with
      | (tk, mid, some x) =>
          if tk = ticker then upsert mid (adjustValue (tys mid) x) acc else acc
      | (_, _, none) => acc) acc) = dlookup m acc := by
  induction rows generalizing acc with
  | nil => rfl
  | cons row rows ih =>
      obtain ⟨tk, mid, v?⟩ := row
      have hrow := h (tk, mid, v?) (List.mem_cons_self _ _)
      have htail : ∀ r ∈ rows, ¬ (r.1 = ticker ∧ r.2.1 = m) :=
        fun r hr => h r (List.mem_cons_of_mem _ hr)
      cases v? with
      | none => exact ih acc htail
      | some x =>
          simp only [List.foldl_cons]
          by_cases htk : tk = ticker
          · rw [if_pos htk]
            have hmid : mid ≠ m := fun hmid => hrow ⟨htk, hmid⟩
            rw [ih _ htail, dlookup_upsert_ne (Ne.symm hmid)]
          · rw [if_neg htk]
            exact ih acc htail

/-- Accumulator-generalized form of `single_ticker_values_lookup`. -/
theorem stv_fold_lookup (tys : String → MType) (ticker m : String) :
    ∀ rows : List Row, (rows.map (fun r => (r.1, r.2.1))).Nodup →
    ∀ r : ℚ, get_metric_raw_value rows ticker m = some r →
    ∀ acc : Dict ℚ,
      dlookup m (rows.foldl (fun acc r =>
        match r with
        | (tk, mid, some x) =>
            if tk = ticker then upsert mid (adjustValue (tys mid) x) acc else acc
        | (_, _, none) => acc) acc) = some (adjustValue (tys m) r) := by
  intro rows
  induction rows with
  | nil =>
      intro _ r hget _
      simp [get_metric_raw_value] at hget
  | cons row rows ih =>
      intro hnd r hget acc
      obtain ⟨tk, mid, v?⟩ := row
      simp only [List.map_cons, List.nodup_cons] at hnd
      by_cases hpred : tk = ticker ∧ mid = m
      · obtain ⟨rfl, rfl⟩ := hpred
        rw [get_metric_raw_value] at hget
        rw [List.find?_cons_of_pos _ (by simp)] at hget
        simp only at hget
        subst hget
        simp only [List.foldl_cons]
        have hnomatch : ∀ r' ∈ rows, ¬ (r'.1 = tk ∧ r'.2.1 = mid) := by
          intro r' hr' hc
          exact hnd.1 (by
            rw [← hc.1, ← hc.2]
            exact List.mem_map_of_mem _ hr')
        rw [stv_fold_lookup_no_match tys tk mid rows _ hnomatch]
        simp [dlookup_upsert_self]
      · have hget' : get_metric_raw_value rows ticker m = some r := by
          rw [get_metric_raw_value] at hget ⊢
          rw [List.find?_cons_of_neg _ (by simpa using hpred)] at hget
          exact hget
        cases v? with
        | none => exact ih hnd.2 r hget' acc
        | some x =>
            simp only [List.foldl_cons]
            by_cases htk : tk = ticker
            · rw [if_pos htk]
              exact ih hnd.2 r hget' _
            · rw [if_neg htk]
              exact ih hnd.2 r hget' acc

/-- With the database's `(ticker, metric)` uniqueness, the raw value
`_get_metric_raw_value` fetches is exactly the (unadjusted) value recorded
in the target's value dict. -/
theorem single_ticker_values_lookup (tys : String → MType) (ticker m : String)
    (rows : List Row) (hnd : (rows.map (fun r => (r.1, r.2.1))).Nodup)
    (r : ℚ) (hget : get_metric_raw_value rows ticker m = some r) :
    dlookup m (single_ticker_values tys rows ticker) =
      some (adjustValue (tys m) r) := by
  rw [single_ticker_values]
  exact stv_fold_lookup tys ticker m rows hnd r hget []

/-- With all requested deltas 0, every entry of the override dict carries
exactly the metric's baseline raw value. -/
theorem build_overrides_dict_mem_zero (rows : List Row) (ticker : String)
    (effective : List MetricOverride)
    (hzero : ∀ o ∈ effective, o.value = 0) (d : Dict ℚ)
    (hd : build_overrides_dict rows ticker effective = some d) :
    ∀ p ∈ d, get_metric_raw_value rows ticker p.1 = some p.2 := by
  rw [build_overrides_dict] at hd
  split_ifs at hd with hne
  simp only [Option.some.injEq] at hd
  subst hd
  suffices haux : ∀ (l : List MetricOverride), (∀ o ∈ l, o.value = 0) →
      ∀ (acc : Dict ℚ),
        (∀ p ∈ acc, get_metric_raw_value rows ticker p.1 = some p.2) →
        ∀ p ∈ l.foldl (fun d o =>
          match get_metric_raw_value rows ticker o.metric_name with
          | none => d
          | some base_raw =>
              upsert o.metric_name (base_raw * (1 + o.value / 100)) d) acc,
          get_metric_raw_value rows ticker p.1 = some p.2 by
    exact haux effective hzero [] (by simp)
  intro l
  induction l with
  | nil =>
      intro _ acc hacc p hp
      exact hacc p hp
  | cons o l ih =>
      intro hz acc hacc p hp
      simp only [List.foldl_cons] at hp
      have ho := hz o (List.mem_cons_self _ _)
      have hz' : ∀ o' ∈ l, o'.value = 0 := fun o' h => hz o' (List.mem_cons_of_mem _ h)
      cases hget : get_metric_raw_value rows ticker o.metric_name with
      | none =>
          rw [hget] at hp
          exact ih hz' acc hacc p hp
      | some base_raw =>
          rw [hget] at hp
          refine ih hz' _ ?_ p hp
          intro q hq
          rcases mem_upsert_sub hq with rfl | hq'
          · simpa [ho] using hget
          · exact hacc q hq'

/-- If every override entry re-inserts the value the target already has,
applying the overrides is the identity. -/
theorem apply_overrides_id (names : List String) (tys : String → MType)
    (d : Dict ℚ) (tv : Dict ℚ)
    (h : ∀ p ∈ d, p.1 ∈ names →
      dlookup p.1 tv = some (adjustValue (tys p.1) p.2)) :
    apply_overrides names tys (some d) tv = tv := by
  rw [apply_overrides]
  induction d with
  | nil => rfl
  | cons p d ih =>
      rw [List.foldl_cons]
      have hstep : (if p.1 ∈ names then
          upsert p.1 (adjustValue (tys p.1) p.2) tv else tv) = tv := by
        split_ifs with hmem
        · exact upsert_eq_self (h p (List.mem_cons_self _ _) hmem)
        · rfl
      rw [hstep]
      exact ih (fun q hq => h q (List.mem_cons_of_mem _ hq))

/-- `run_simulation` fields, unfolded. -/
theorem run_simulation_baseline (metrics : List MetricWeightInput)
    (rows : List Row) (ticker : String) (policy : Policy)
    (overrides : List MetricOverride) :
    (run_simulation metrics rows ticker policy overrides).baseline_score =
      compute_single_ticker_score metrics rows ticker policy none := rfl

theorem run_simulation_simulated (metrics : List MetricWeightInput)
    (rows : List Row) (ticker : String) (policy : Policy)
    (overrides : List MetricOverride) :
    (run_simulation metrics rows ticker policy overrides).simulated_score =
      compute_single_ticker_score metrics rows ticker policy
        (build_overrides_dict rows ticker
          (overrides.filter
            (fun o => o.metric_name ∈ metrics.map (·.metric_name)))) := rfl

theorem run_simulation_delta (metrics : List MetricWeightInput)
    (rows : List Row) (ticker : String) (policy : Policy)
    (overrides : List MetricOverride) :
    (run_simulation metrics rows ticker policy overrides).delta =
      (match compute_single_ticker_score metrics rows ticker policy none,
          compute_single_ticker_score metrics rows ticker policy
            (build_overrides_dict rows ticker
              (overrides.filter
                (fun o => o.metric_name ∈ metrics.map (·.metric_name)))) with
        | some b, some s => some (round6 (s - b))
        | _, _ => none) := rfl

/-- Core of C7: a zero-delta override dict leaves the simulated pass equal
to the baseline pass. -/
theorem simulated_eq_baseline_of_zero (metrics : List MetricWeightInput)
    (rows : List Row) (ticker : String) (policy : Policy)
    (overrides : List MetricOverride)
    (hnd : (rows.map (fun r => (r.1, r.2.1))).Nodup)
    (hzero : ∀ o ∈ overrides, o.value = 0) :
    compute_single_ticker_score metrics rows ticker policy
        (build_overrides_dict rows ticker
          (overrides.filter (fun o => o.metric_name ∈ metrics.map (·.metric_name)))) =
      compute_single_ticker_score metrics rows ticker policy none := by
  cases hbd : build_overrides_dict rows ticker
      (overrides.filter (fun o => o.metric_name ∈ metrics.map (·.metric_name))) with
  | none => rfl
  | some d =>
      by_cases hrows : rows = []
      · subst hrows
        rw [compute_single_ticker_score_nil_rows, compute_single_ticker_score_nil_rows]
      · rw [compute_single_ticker_decomp metrics rows ticker policy (some d) hrows,
          compute_single_ticker_decomp metrics rows ticker policy none hrows]
        have hmem := build_overrides_dict_mem_zero rows ticker _
          (fun o ho => hzero o (List.mem_filter.1 ho).1) d hbd
        rw [apply_overrides_id _ _ _ _ ?_]
        · rfl
        · intro p hp _
          exact single_ticker_values_lookup _ ticker p.1 rows hnd p.2 (hmem p hp)

/-- **C7**: a simulation whose requested overrides all have `percent_delta
= 0` returns a simulated score equal to the baseline score and a delta of
exactly 0 (given the database's `(ticker, metric, year)` uniqueness); and
whenever the baseline score is unavailable the returned delta is null. -/
theorem C7_zero_delta :
    (∀ (metrics : List MetricWeightInput) (rows : List Row) (ticker : String)
      (policy : Policy) (overrides : List MetricOverride),
      (rows.map (fun r => (r.1, r.2.1))).Nodup →
      (∀ o ∈ overrides, o.value = 0) →
      (run_simulation metrics rows ticker policy overrides).simulated_score =
        (run_simulation metrics rows ticker policy overrides).baseline_score ∧
      (run_simulation metrics rows ticker policy overrides).delta =
        (if (run_simulation metrics rows ticker policy overrides).baseline_score
            = none then none else some 0)) ∧
    (∀ (metrics : List MetricWeightInput) (rows : List Row) (ticker : String)
      (policy : Policy) (overrides : List MetricOverride),
      (run_simulation metrics rows ticker policy overrides).baseline_score =
        none →
      (run_simulation metrics rows ticker policy overrides).delta = none) := by
  constructor
  · intro metrics rows ticker policy overrides hnd hzero
    have hsim := simulated_eq_baseline_of_zero metrics rows ticker policy
      overrides hnd hzero
    rw [run_simulation_simulated, run_simulation_baseline, run_simulation_delta,
      hsim]
    refine ⟨rfl, ?_⟩
    cases hb : compute_single_ticker_score metrics rows ticker policy none with
    | none => simp
    | some b => simp [round6_zero]
  · intro metrics rows ticker policy overrides hb
    rw [run_simulation_baseline] at hb
    rw [run_simulation_delta, hb]

set_option maxHeartbeats 1000000 in
/-- Witness for `C7_zero_delta` on the §8 example universe with two
zero-delta overrides. -/
theorem C7_witness :
    (run_simulation [⟨"A", .benefit, 1⟩, ⟨"B", .benefit, 1⟩]
        [("X", "A", some 10), ("X", "B", some 5),
         ("Y", "A", some 20), ("Y", "B", some 10)] "X" .zero
        [⟨"A", 0⟩, ⟨"B", 0⟩]).simulated_score =
      (run_simulation [⟨"A", .benefit, 1⟩, ⟨"B", .benefit, 1⟩]
        [("X", "A", some 10), ("X", "B", some 5),
         ("Y", "A", some 20), ("Y", "B", some 10)] "X" .zero
        [⟨"A", 0⟩, ⟨"B", 0⟩]).baseline_score ∧
    (run_simulation [⟨"A", .benefit, 1⟩, ⟨"B", .benefit, 1⟩]
        [("X", "A", some 10), ("X", "B", some 5),
         ("Y", "A", some 20), ("Y", "B", some 10)] "X" .zero
        [⟨"A", 0⟩, ⟨"B", 0⟩]).delta =
      (if (run_simulation [⟨"A", .benefit, 1⟩, ⟨"B", .benefit, 1⟩]
          [("X", "A", some 10), ("X", "B", some 5),
           ("Y", "A", some 20), ("Y", "B", some 10)] "X" .zero
          [⟨"A", 0⟩, ⟨"B", 0⟩]).baseline_score = none then none else some 0) :=
  C7_zero_delta.1 [⟨"A", .benefit, 1⟩, ⟨"B", .benefit, 1⟩]
    [("X", "A", some 10), ("X", "B", some 5),
     ("Y", "A", some 20), ("Y", "B", some 10)] "X" .zero
    [⟨"A", 0⟩, ⟨"B", 0⟩]
    (by simp)
    (by intro o ho
        rcases List.mem_cons.1 ho with rfl | ho'
        · rfl
        · rcases List.mem_cons.1 ho' with rfl | h
          · rfl
          · exact absurd h (List.not_mem_nil _))

/-! ### Claim C8: simulation override monotonicity -/

theorem clamp01_of_nonpos {x : ℚ} (h : x ≤ 0) : clamp01 x = 0 := by
  rw [clamp01, min_eq_right (h.trans zero_le_one), max_eq_left h]

/-- For a benefit metric, scaling a fixed base value by a nondecreasing
non-negative factor never decreases the normalized value, whatever the signs
of the base value and of the universe maximum. -/
theorem norm_benefit_scale_mono (minv maxv b : ℚ) {f₁ f₂ : ℚ}
    (hf₀ : 0 ≤ f₁) (hf : f₁ ≤ f₂) :
    normalized_value .benefit minv maxv (b * f₁) ≤
      normalized_value .benefit minv maxv (b * f₂) := by
  simp only [normalized_value]
  by_cases hmax : maxv = 0
  · rw [if_pos hmax, if_pos hmax]
  · rw [if_neg hmax, if_neg hmax]
    rcases le_or_lt 0 b with hb | hb
    · rcases lt_or_gt_of_ne hmax with hneg | hpos
      · rw [clamp01_of_nonpos (div_nonpos_iff.2 (Or.inl
            ⟨mul_nonneg hb hf₀, hneg.le⟩)),
          clamp01_of_nonpos (div_nonpos_iff.2 (Or.inl
            ⟨mul_nonneg hb (hf₀.trans hf), hneg.le⟩))]
      · exact clamp01_mono (div_le_div_of_nonneg_right
          (mul_le_mul_of_nonneg_left hf hb) hpos.le)
    · rcases lt_or_gt_of_ne hmax with hneg | hpos
      · exact clamp01_mono ((div_le_div_right_of_neg hneg).2
          (mul_le_mul_of_nonpos_left hf hb.le))
      · rw [clamp01_of_nonpos (div_nonpos_iff.2 (Or.inr
            ⟨mul_nonpos_of_nonpos_of_nonneg hb.le hf₀, hpos.le⟩)),
          clamp01_of_nonpos (div_nonpos_iff.2 (Or.inr
            ⟨mul_nonpos_of_nonpos_of_nonneg hb.le (hf₀.trans hf), hpos.le⟩))]

/-- Replacing the value stored under one key by one whose scoring term is
larger never decreases the accumulated score. -/
theorem ticker_score_upsert_mono (tys : String → MType) (w : Dict ℚ)
    (minOf maxOf : String → ℚ) (wd : ℚ) (m : String) (v₁ v₂ : ℚ)
    (h : (dlookup m w).getD 0 / wd *
          normalized_value (tys m) (minOf m) (maxOf m) v₁ ≤
        (dlookup m w).getD 0 / wd *
          normalized_value (tys m) (minOf m) (maxOf m) v₂) :
    ∀ T : Dict ℚ, ticker_score tys w minOf maxOf wd (upsert m v₁ T) ≤
      ticker_score tys w minOf maxOf wd (upsert m v₂ T) := by
  intro T
  induction T with
  | nil =>
      simp only [upsert, ticker_score, List.map_cons, List.map_nil,
        List.sum_cons, List.sum_nil, add_zero]
      exact h
  | cons p T ih =>
      obtain ⟨k, x⟩ := p
      by_cases hk : k = m
      · subst hk
        rw [upsert, if_pos rfl, upsert, if_pos rfl]
        simp only [ticker_score, List.map_cons, List.sum_cons]
        exact add_le_add_right h _
      · rw [upsert, if_neg hk, upsert, if_neg hk]
        simp only [ticker_score, List.map_cons, List.sum_cons]
        simp only [ticker_score] at ih
        exact add_le_add_left ih _

theorem dlookup_eq_none_iff {k : String} {d : Dict α} :
    dlookup k d = none ↔ k ∉ dkeys d := by
  induction d with
  | nil => simp [dlookup, dkeys]
  | cons p d ih =>
      obtain ⟨k', v'⟩ := p
      by_cases hk : k' = k
      · subst hk
        simp [dlookup, dkeys]
      · have hk' : ¬ k = k' := fun h => hk h.symm
        simp only [dlookup, if_neg hk, ih, dkeys, List.map_cons, List.mem_cons]
        tauto

/-- The keys of an upserted dict do not depend on the inserted value. -/
theorem dkeys_upsert_value (k : String) (v v' : α) (d : Dict α) :
    dkeys (upsert k v d) = dkeys (upsert k v' d) := by
  induction d with
  | nil => rfl
  | cons p d ih =>
      obtain ⟨k', x⟩ := p
      by_cases hk : k' = k
      · rw [upsert, if_pos hk, upsert, if_pos hk]
        simp [dkeys]
      · rw [upsert, if_neg hk, upsert, if_neg hk]
        simp only [dkeys, List.map_cons]
        exact congrArg (List.cons k') (by simpa [dkeys] using ih)

theorem available_weight_sum_keys (w d : Dict ℚ) :
    available_weight_sum w d =
      ((dkeys d).map (fun k => (dlookup k w).getD 0)).sum := by
  simp only [available_weight_sum, dkeys, List.map_map]
  rfl

/-- The redistribute divisor does not depend on the stored values. -/
theorem available_weight_sum_upsert_value (w : Dict ℚ) (m : String)
    (v v' : ℚ) (T : Dict ℚ) :
    available_weight_sum w (upsert m v T) =
      available_weight_sum w (upsert m v' T) := by
  rw [available_weight_sum_keys, available_weight_sum_keys,
    dkeys_upsert_value m v v' T]

/-- Which metrics are missing does not depend on the stored values. -/
theorem missing_metrics_upsert_value (req : List String) (m : String)
    (v v' : ℚ) (T : Dict ℚ) :
    missing_metrics_of req (upsert m v T) =
      missing_metrics_of req (upsert m v' T) := by
  rw [missing_metrics_of, missing_metrics_of]
  apply List.filter_congr
  intro k _
  rw [decide_eq_decide, dlookup_eq_none_iff, dlookup_eq_none_iff,
    dkeys_upsert_value m v v' T]

theorem upsert_ne_nil (k : String) (v : α) (d : Dict α) : upsert k v d ≠ [] := by
  cases d with
  | nil => simp [upsert]
  | cons p d =>
      obtain ⟨k', x⟩ := p
      rw [upsert]
      split_ifs <;> exact List.cons_ne_nil _ _

theorem dlookup_getD_nonneg {d : Dict ℚ} (hd : ∀ p ∈ d, 0 ≤ p.2) (k : String) :
    0 ≤ (dlookup k d).getD 0 := by
  cases h : dlookup k d with
  | none => simp
  | some v => simpa using hd (k, v) (dlookup_mem h)

/-- Overrides that never name `m` leave `m` outside the override dict. -/
theorem bod_fold_keys (rows : List Row) (ticker : String) (m : String) :
    ∀ l : List MetricOverride, (∀ o ∈ l, o.metric_name ≠ m) →
    ∀ acc : Dict ℚ, m ∉ dkeys acc →
    m ∉ dkeys (l.foldl (fun d o =>
      match get_metric_raw_value rows ticker o.metric_name with
      | none => d
      | some base_raw =>
          upsert o.metric_name (base_raw * (1 + o.value / 100)) d) acc) := by
  intro l
  induction l with
  | nil =>
      intro _ acc hacc
      simpa using hacc
  | cons o l ih =>
      intro hl acc hacc
      simp only [List.foldl_cons]
      have ho : o.metric_name ≠ m := hl o (List.mem_cons_self _ _)
      have hl' : ∀ o' ∈ l, o'.metric_name ≠ m :=
        fun o' h => hl o' (List.mem_cons_of_mem _ h)
      cases hg : get_metric_raw_value rows ticker o.metric_name with
      | none =>
          exact ih hl' acc hacc
      | some br =>
          simp only []
          refine ih hl' _ ?_
          intro hmem
          rcases List.mem_cons.1
              (dkeys_upsert_sub o.metric_name _ acc hmem) with h | h
          · exact ho h.symm
          · exact hacc h

/-- Core monotonicity of the basis scorer: if the scoring term of metric `m`
only grows when its stored value is replaced, every `some`-valued outcome
grows with it, under any missing-data policy. -/
theorem score_against_basis_upsert_mono (metrics : List MetricWeightInput)
    (policy : Policy) (minOf maxOf : String → ℚ) (T : Dict ℚ) (m : String)
    (v₁ v₂ : ℚ)
    (hw : ∀ mw ∈ metrics, 0 ≤ mw.weight)
    (hnorm : normalized_value (typeOf metrics m) (minOf m) (maxOf m) v₁ ≤
      normalized_value (typeOf metrics m) (minOf m) (maxOf m) v₂)
    {s₁ s₂ : ℚ}
    (h₁ : score_against_basis metrics policy minOf maxOf (upsert m v₁ T) =
      some s₁)
    (h₂ : score_against_basis metrics policy minOf maxOf (upsert m v₂ T) =
      some s₂) :
    s₁ ≤ s₂ := by
  have hne₁ : upsert m v₁ T ≠ [] := upsert_ne_nil m v₁ T
  have hne₂ : upsert m v₂ T ≠ [] := upsert_ne_nil m v₂ T
  rw [score_against_basis] at h₁ h₂
  simp only [] at h₁ h₂
  by_cases hm : metrics = []
  · rw [if_pos hm] at h₁
    exact Option.noConfusion h₁
  rw [if_neg hm] at h₁ h₂
  by_cases htot : (metrics.map (·.weight)).sum ≤ 0
  · rw [if_pos htot] at h₁
    exact Option.noConfusion h₁
  rw [if_neg htot] at h₁ h₂
  rw [if_neg hne₁] at h₁
  rw [if_neg hne₂] at h₂
  have htot' : 0 < (metrics.map (·.weight)).sum := not_le.1 htot
  have hwnn : ∀ p ∈ dictOf (metrics.map fun mw =>
      (mw.metric_name, mw.weight / (metrics.map (·.weight)).sum)), 0 ≤ p.2 := by
    intro p hp
    obtain ⟨mw, hmw, hpe⟩ := List.mem_map.1 (mem_dictOf hp)
    subst hpe
    exact div_nonneg (hw mw hmw) htot'.le
  have hkey : 0 ≤ (dlookup m (dictOf (metrics.map fun mw =>
      (mw.metric_name, mw.weight / (metrics.map (·.weight)).sum)))).getD 0 :=
    dlookup_getD_nonneg hwnn m
  cases policy with
  | zero =>
      simp only [] at h₁ h₂
      injection h₁ with h₁
      injection h₂ with h₂
      subst h₁
      subst h₂
      exact round6_mono (ticker_score_upsert_mono _ _ _ _ _ _ _ _
        (mul_le_mul_of_nonneg_left hnorm (div_nonneg hkey zero_le_one)) T)
  | drop =>
      simp only [] at h₁ h₂
      rw [missing_metrics_upsert_value _ m v₂ v₁ T] at h₂
      by_cases hmiss : missing_metrics_of ((metrics.map (·.metric_name)).dedup)
          (upsert m v₁ T) ≠ []
      · rw [if_pos hmiss] at h₁
        exact Option.noConfusion h₁
      · rw [if_neg hmiss] at h₁ h₂
        injection h₁ with h₁
        injection h₂ with h₂
        subst h₁
        subst h₂
        exact round6_mono (ticker_score_upsert_mono _ _ _ _ _ _ _ _
          (mul_le_mul_of_nonneg_left hnorm (div_nonneg hkey zero_le_one)) T)
  | redistribute =>
      simp only [] at h₁ h₂
      rw [available_weight_sum_upsert_value _ m v₂ v₁ T] at h₂
      by_cases hS : available_weight_sum (dictOf (metrics.map fun mw =>
          (mw.metric_name, mw.weight / (metrics.map (·.weight)).sum)))
          (upsert m v₁ T) ≤ 0
      · rw [if_pos hS] at h₁
        exact Option.noConfusion h₁
      · rw [if_neg hS] at h₁ h₂
        injection h₁ with h₁
        injection h₂ with h₂
        subst h₁
        subst h₂
        exact round6_mono (ticker_score_upsert_mono _ _ _ _ _ _ _ _
          (mul_le_mul_of_nonneg_left hnorm
            (div_nonneg hkey (not_le.1 hS).le)) T)

theorem string_UU_ne_TT : ("UU" : String) ≠ "TT" := by decide

theorem string_TT_ne_UU : ("TT" : String) ≠ "UU" := by decide

set_option maxHeartbeats 8000000 in
/-- **C8** (counterexample). The schema does not bound the override
percentage below, and for a negative baseline raw value the simulated raw
value `base * (1 + p/100)` *decreases* as `p` grows through `-100`. In the
universe `TT.m = -10`, `UU.m = 100` (benefit metric `m`, weight 1, policy
`zero`), raising the override on `TT` from `-300` to `-200` drops the
simulated score from `0.2` to `0.1` — the claimed monotonicity fails. -/
theorem C8_counterexample :
    ((-300 : ℚ) ≤ -200) ∧
    (run_simulation [⟨"m", .benefit, 1⟩]
        [("TT", "m", some (-10)), ("UU", "m", some 100)] "TT" .zero
        [⟨"m", -300⟩]).simulated_score = some (1 / 5) ∧
    (run_simulation [⟨"m", .benefit, 1⟩]
        [("TT", "m", some (-10)), ("UU", "m", some 100)] "TT" .zero
        [⟨"m", -200⟩]).simulated_score = some (1 / 10) ∧
    ¬ ((1 : ℚ) / 5 ≤ 1 / 10) := by
  refine ⟨by norm_num, ?_, ?_, by norm_num⟩
  · simp [run_simulation, build_overrides_dict, get_metric_raw_value,
      compute_single_ticker_score, single_ticker_values, apply_overrides,
      typeOf, metric_type_by_name, dictOf, upsert, dlookup, adjustValue,
      missing_metrics_of, ticker_score, normalized_value, clamp01,
      min_by_metric, max_by_metric, metric_column, available_weight_sum,
      List.find?, List.filter_cons, List.filter_nil,
      List.dedup_cons_of_mem, List.dedup_cons_of_not_mem, List.dedup_nil,
      List.cons_ne_nil, List.filterMap, List.max?, List.min?, List.foldl,
      List.foldr]
    norm_num [dlookup, Option.getD, round6_fifth, string_UU_ne_TT,
      string_TT_ne_UU, min_def, max_def, List.cons_ne_nil]
  · simp [run_simulation, build_overrides_dict, get_metric_raw_value,
      compute_single_ticker_score, single_ticker_values, apply_overrides,
      typeOf, metric_type_by_name, dictOf, upsert, dlookup, adjustValue,
      missing_metrics_of, ticker_score, normalized_value, clamp01,
      min_by_metric, max_by_metric, metric_column, available_weight_sum,
      List.find?, List.filter_cons, List.filter_nil,
      List.dedup_cons_of_mem, List.dedup_cons_of_not_mem, List.dedup_nil,
      List.cons_ne_nil, List.filterMap, List.max?, List.min?, List.foldl,
      List.foldr]
    norm_num [dlookup, Option.getD, round6_tenth, string_UU_ne_TT,
      string_TT_ne_UU, min_def, max_def, List.cons_ne_nil]

set_option maxHeartbeats 1000000 in
/-- **C8** (amended): the claimed monotonicity does hold once the override
percentage stays in the domain the spec presumes, `p ≥ -100` (so the scale
factor `1 + p/100` is non-negative): for a benefit-oriented in-scope metric
`m` not named by any other override, non-negative request weights, and any
universe, ticker and missing-data policy, `p₁ ≤ p₂` implies
`simulated_score(p₁) ≤ simulated_score(p₂)` whenever both simulated scores
are available. Below `-100` the counterexample above shows the claim fails. -/
theorem C8_amended (metrics : List MetricWeightInput) (rows : List Row)
    (ticker : String) (policy : Policy) (os : List MetricOverride)
    (m : String) (p₁ p₂ s₁ s₂ : ℚ)
    (hw : ∀ mw ∈ metrics, 0 ≤ mw.weight)
    (hscope : m ∈ metrics.map (·.metric_name))
    (hb : typeOf metrics m = .benefit)
    (hos : ∀ o ∈ os, o.metric_name ≠ m)
    (hp₁ : -100 ≤ p₁) (hp : p₁ ≤ p₂)
    (h₁ : (run_simulation metrics rows ticker policy
        (os ++ [⟨m, p₁⟩])).simulated_score = some s₁)
    (h₂ : (run_simulation metrics rows ticker policy
        (os ++ [⟨m, p₂⟩])).simulated_score = some s₂) :
    s₁ ≤ s₂ := by
  rw [run_simulation_simulated] at h₁ h₂
  rcases eq_or_ne rows [] with hrows | hrows
  · rw [hrows, compute_single_ticker_score_nil_rows] at h₁
    exact Option.noConfusion h₁
  rw [compute_single_ticker_decomp _ _ _ _ _ hrows] at h₁ h₂
  have hfilt : ∀ p : ℚ, (os ++ [(⟨m, p⟩ : MetricOverride)]).filter
      (fun o => o.metric_name ∈ metrics.map (·.metric_name)) =
      os.filter (fun o => o.metric_name ∈ metrics.map (·.metric_name)) ++
        [(⟨m, p⟩ : MetricOverride)] := by
    intro p
    rw [List.filter_append,
      List.filter_cons_of_pos (by simpa using hscope), List.filter_nil]
  rw [hfilt p₁] at h₁
  rw [hfilt p₂] at h₂
  set os' := os.filter
    (fun o => o.metric_name ∈ metrics.map (·.metric_name)) with hos'
  have hbod : ∀ p : ℚ,
      build_overrides_dict rows ticker (os' ++ [(⟨m, p⟩ : MetricOverride)]) =
      some ((os' ++ [(⟨m, p⟩ : MetricOverride)]).foldl
        (fun (d : Dict ℚ) (o : MetricOverride) =>
        match get_metric_raw_value rows ticker o.metric_name with
        | none => d
        | some base_raw =>
            upsert o.metric_name (base_raw * (1 + o.value / 100)) d) []) := by
    intro p
    have hne : ¬ (os' ++ [(⟨m, p⟩ : MetricOverride)] = []) := by simp
    rw [build_overrides_dict, if_neg hne]
  rw [hbod p₁] at h₁
  rw [hbod p₂] at h₂
  rw [List.foldl_append] at h₁ h₂
  simp only [List.foldl_cons, List.foldl_nil] at h₁ h₂
  cases hraw : get_metric_raw_value rows ticker m with
  | none =>
      rw [hraw] at h₁ h₂
      simp only [] at h₁ h₂
      rw [h₁] at h₂
      injection h₂ with h
      exact le_of_eq h
  | some br =>
      rw [hraw] at h₁ h₂
      simp only [] at h₁ h₂
      have hd0 : m ∉ dkeys (os'.foldl (fun d o =>
          match get_metric_raw_value rows ticker o.metric_name with
          | none => d
          | some base_raw =>
              upsert o.metric_name (base_raw * (1 + o.value / 100)) d) []) := by
        refine bod_fold_keys rows ticker m os' ?_ [] (by simp [dkeys])
        intro o ho
        rw [hos'] at ho
        exact hos o (List.mem_of_mem_filter ho)
      rw [upsert_of_not_mem (br * (1 + p₁ / 100)) hd0] at h₁
      rw [upsert_of_not_mem (br * (1 + p₂ / 100)) hd0] at h₂
      rw [apply_overrides] at h₁ h₂
      rw [List.foldl_append] at h₁ h₂
      simp only [List.foldl_cons, List.foldl_nil] at h₁ h₂
      rw [if_pos hscope] at h₁ h₂
      have hadj : ∀ v : ℚ, adjustValue (typeOf metrics m) v = v := by
        intro v
        rw [hb]
        simp [adjustValue]
      rw [hadj] at h₁ h₂
      have hnormle : normalized_value (typeOf metrics m)
          (min_by_metric (typeOf metrics) rows m)
          (max_by_metric (typeOf metrics) rows m) (br * (1 + p₁ / 100)) ≤
          normalized_value (typeOf metrics m)
          (min_by_metric (typeOf metrics) rows m)
          (max_by_metric (typeOf metrics) rows m) (br * (1 + p₂ / 100)) := by
        rw [hb]
        exact norm_benefit_scale_mono _ _ br (by linarith) (by linarith)
      exact score_against_basis_upsert_mono metrics policy
        (min_by_metric (typeOf metrics) rows)
        (max_by_metric (typeOf metrics) rows) _ m
        (br * (1 + p₁ / 100)) (br * (1 + p₂ / 100)) hw hnormle h₁ h₂

set_option maxHeartbeats 1000000 in
/-- Witness for `C8_amended`: a concrete one-metric universe, two equal
in-range override percentages, both simulated scores `1`. -/
theorem C8_amended_witness :
    (run_simulation [⟨"m", MType.benefit, 1⟩] [("TT", "m", some 10)] "TT"
        .zero ([] ++ [⟨"m", 0⟩])).simulated_score = some 1 ∧ (1 : ℚ) ≤ 1 := by
  have hs : (run_simulation [⟨"m", MType.benefit, 1⟩] [("TT", "m", some 10)]
      "TT" .zero ([] ++ [⟨"m", 0⟩])).simulated_score = some 1 := by
    simp [run_simulation, build_overrides_dict, get_metric_raw_value,
      compute_single_ticker_score, single_ticker_values, apply_overrides,
      typeOf, metric_type_by_name, dictOf, upsert, dlookup, adjustValue,
      missing_metrics_of, ticker_score, normalized_value, clamp01,
      min_by_metric, max_by_metric, metric_column, available_weight_sum,
      List.find?, List.filter_cons, List.filter_nil, List.dedup_cons_of_mem,
      List.dedup_cons_of_not_mem, List.dedup_nil, List.cons_ne_nil,
      List.filterMap, List.max?, List.min?, List.foldl, List.foldr]
    norm_num [dlookup, Option.getD, round6_one, min_def, max_def,
      List.cons_ne_nil]
  refine ⟨hs, ?_⟩
  exact C8_amended [⟨"m", MType.benefit, 1⟩] [("TT", "m", some 10)] "TT" .zero
    [] "m" 0 0 1 1
    (by intro mw hmw; rcases List.mem_singleton.1 hmw with rfl; norm_num)
    (by simp)
    (by rfl)
    (by intro o ho; cases ho)
    (by norm_num) le_rfl hs hs

/-! ### Claim C5: the `drop` policy -/

theorem dkeys_upsertInner_sub (t m : String) (v : ℚ) (d : Dict (Dict ℚ)) :
    dkeys (upsertInner t m v d) ⊆ t :: dkeys d := by
  induction d with
  | nil => simp [upsertInner, dkeys]
  | cons p d ih =>
      obtain ⟨t', inner⟩ := p
      by_cases ht : t' = t
      · rw [upsertInner, if_pos ht]
        intro a ha
        simp only [dkeys, List.map_cons, List.mem_cons] at ha ⊢
        tauto
      · rw [upsertInner, if_neg ht]
        intro a ha
        simp only [dkeys, List.map_cons, List.mem_cons] at ha ⊢
        rcases ha with ha | ha
        · tauto
        · have := ih ha
          simp only [List.mem_cons] at this
          tauto

theorem dkeys_upsertInner_nodup (t m : String) (v : ℚ) (d : Dict (Dict ℚ))
    (h : (dkeys d).Nodup) : (dkeys (upsertInner t m v d)).Nodup := by
  induction d with
  | nil => simp [upsertInner, dkeys]
  | cons p d ih =>
      obtain ⟨t', inner⟩ := p
      simp only [dkeys, List.map_cons, List.nodup_cons] at h
      by_cases ht : t' = t
      · subst ht
        rw [upsertInner, if_pos rfl]
        simpa [dkeys, List.nodup_cons] using h
      · rw [upsertInner, if_neg ht]
        simp only [dkeys, List.map_cons, List.nodup_cons]
        refine ⟨fun hmem => ?_, ih h.2⟩
        rcases List.mem_cons.1 (dkeys_upsertInner_sub t m v d hmem) with h1 | h1
        · exact ht h1
        · exact h.1 h1

/-- The ticker keys of the per-ticker value map are pairwise distinct. -/
theorem bmtv_keys_nodup (tys : String → MType) (rows : List Row) :
    (dkeys (build_ticker_metric_values tys rows)).Nodup := by
  rw [build_ticker_metric_values]
  suffices haux : ∀ (l : List Row) (acc : Dict (Dict ℚ)), (dkeys acc).Nodup →
      (dkeys (l.foldl (fun acc r =>
        match r with
        | (_, _, none) => acc
        | (tk, mid, some x) => upsertInner tk mid (adjustValue (tys mid) x) acc)
        acc)).Nodup by
    exact haux rows [] (by simp [dkeys])
  intro l
  induction l with
  | nil =>
      intro acc h
      simpa using h
  | cons r l ih =>
      intro acc h
      obtain ⟨tk, mid, v?⟩ := r
      simp only [List.foldl_cons]
      cases v? with
      | none => exact ih acc h
      | some x => exact ih _ (dkeys_upsertInner_nodup _ _ _ _ h)

/-- A ticker all of whose fetched values are null never enters the
per-ticker value map, hence is invisible to the policy loop. -/
theorem bmtv_absent_of_all_null (tys : String → MType) (rows : List Row)
    (t : String) (hnull : ∀ r ∈ rows, r.1 = t → r.2.2 = none) :
    t ∉ dkeys (build_ticker_metric_values tys rows) := by
  rw [build_ticker_metric_values]
  suffices haux : ∀ l : List Row, (∀ r ∈ l, r.1 = t → r.2.2 = none) →
      ∀ acc : Dict (Dict ℚ), t ∉ dkeys acc →
      t ∉ dkeys (l.foldl (fun acc r =>
        match r with
        | (_, _, none) => acc
        | (tk, mid, some x) => upsertInner tk mid (adjustValue (tys mid) x) acc)
        acc) by
    exact haux rows hnull [] (by simp [dkeys])
  intro l
  induction l with
  | nil =>
      intro _ acc hacc
      simpa using hacc
  | cons r l ih =>
      intro hr acc hacc
      obtain ⟨tk, mid, v?⟩ := r
      simp only [List.foldl_cons]
      have hr' : ∀ r ∈ l, r.1 = t → r.2.2 = none :=
        fun r h => hr r (List.mem_cons_of_mem _ h)
      cases v? with
      | none => exact ih hr' acc hacc
      | some x =>
          simp only []
          refine ih hr' _ ?_
          intro hmem
          rcases List.mem_cons.1 (dkeys_upsertInner_sub tk mid _ acc hmem)
            with h | h
          · exact Option.noConfusion (hr (tk, mid, some x)
              (List.mem_cons_self _ _) h.symm)
          · exact hacc h

/-- Under `drop`, a ticker with a missing requested metric becomes a dropped
record carrying exactly the missing metric names. -/
theorem process_ticker_drop_of_missing (requested : List String) (w : Dict ℚ)
    (tys : String → MType) (minOf maxOf : String → ℚ) (tk : String)
    (mvals : Dict ℚ) (hmiss : missing_metrics_of requested mvals ≠ []) :
    process_ticker .drop requested w tys minOf maxOf tk mvals =
      some (.inr ⟨tk, "Dropped due to missing metrics",
        some (missing_metrics_of requested mvals)⟩) := by
  rw [process_ticker]
  rw [if_pos hmiss, if_neg hmiss]

/-- Under `drop`, a ticker with all requested metrics available is ranked
with the full-divisor score. -/
theorem process_ticker_drop_of_complete (requested : List String) (w : Dict ℚ)
    (tys : String → MType) (minOf maxOf : String → ℚ) (tk : String)
    (mvals : Dict ℚ) (hmiss : missing_metrics_of requested mvals = []) :
    process_ticker .drop requested w tys minOf maxOf tk mvals =
      some (.inl ⟨tk, round6 (ticker_score tys w minOf maxOf 1 mvals)⟩) := by
  rw [process_ticker]
  rw [if_neg (not_not_intro hmiss)]

/-- Any ranking item produced by the policy loop carries the ticker it was
produced for. -/
theorem process_ticker_inl_ticker (policy : Policy) (requested : List String)
    (w : Dict ℚ) (tys : String → MType) (minOf maxOf : String → ℚ)
    (tk : String) (mvals : Dict ℚ) (i : RankingItem)
    (h : process_ticker policy requested w tys minOf maxOf tk mvals =
      some (.inl i)) : i.ticker = tk := by
  cases policy with
  | drop =>
      rw [process_ticker] at h
      by_cases hmiss : missing_metrics_of requested mvals ≠ []
      · rw [if_pos hmiss] at h
        injection h with h
        exact Sum.noConfusion h
      · rw [if_neg hmiss] at h
        injection h with h
        injection h with h
        rw [← h]
  | redistribute =>
      rw [process_ticker] at h
      by_cases hS : available_weight_sum w mvals ≤ 0
      · rw [if_pos hS] at h
        exact Option.noConfusion h
      · rw [if_neg hS] at h
        injection h with h
        injection h with h
        rw [← h]
  | zero =>
      rw [process_ticker] at h
      injection h with h
      injection h with h
      rw [← h]

/-- Any dropped record produced by the policy loop carries the ticker it was
produced for. -/
theorem process_ticker_inr_ticker (policy : Policy) (requested : List String)
    (w : Dict ℚ) (tys : String → MType) (minOf maxOf : String → ℚ)
    (tk : String) (mvals : Dict ℚ) (d : DroppedTicker)
    (h : process_ticker policy requested w tys minOf maxOf tk mvals =
      some (.inr d)) : d.ticker = tk := by
  cases policy with
  | drop =>
      rw [process_ticker] at h
      by_cases hmiss : missing_metrics_of requested mvals ≠ []
      · rw [if_pos hmiss] at h
        injection h with h
        injection h with h
        rw [← h]
      · rw [if_neg hmiss] at h
        injection h with h
        exact Sum.noConfusion h
  | redistribute =>
      rw [process_ticker] at h
      by_cases hS : available_weight_sum w mvals ≤ 0
      · rw [if_pos hS] at h
        exact Option.noConfusion h
      · rw [if_neg hS] at h
        injection h with h
        exact Sum.noConfusion h
  | zero =>
      rw [process_ticker] at h
      injection h with h
      exact Sum.noConfusion h

/-- Every accumulated ranking item originates from one entry of the ticker
value map. -/
theorem wsm_ranking0_origin {metrics : List MetricWeightInput}
    {rows : List Row} {policy : Policy} {w : Dict ℚ} {i : RankingItem}
    (hi : i ∈ wsm_ranking0 metrics rows policy w) :
    ∃ p ∈ build_ticker_metric_values (typeOf metrics) rows,
      process_ticker policy ((metrics.map (·.metric_name)).dedup) w
        (typeOf metrics) (min_by_metric (typeOf metrics) rows)
        (max_by_metric (typeOf metrics) rows) p.1 p.2 = some (.inl i) := by
  rw [wsm_ranking0] at hi
  rcases List.mem_filterMap.1 hi with ⟨r, hr, hre⟩
  rw [wsm_results] at hr
  rcases List.mem_filterMap.1 hr with ⟨p, hp, hpe⟩
  refine ⟨p, hp, ?_⟩
  cases r with
  | inl j =>
      simp only [] at hre
      injection hre with hre
      rw [hre] at hpe
      exact hpe
  | inr dt =>
      simp only [] at hre
      exact Option.noConfusion hre

/-- Every accumulated dropped record originates from one entry of the ticker
value map. -/
theorem wsm_dropped_origin {metrics : List MetricWeightInput}
    {rows : List Row} {policy : Policy} {w : Dict ℚ} {d : DroppedTicker}
    (hd : d ∈ wsm_dropped metrics rows policy w) :
    ∃ p ∈ build_ticker_metric_values (typeOf metrics) rows,
      process_ticker policy ((metrics.map (·.metric_name)).dedup) w
        (typeOf metrics) (min_by_metric (typeOf metrics) rows)
        (max_by_metric (typeOf metrics) rows) p.1 p.2 = some (.inr d) := by
  rw [wsm_dropped] at hd
  rcases List.mem_filterMap.1 hd with ⟨r, hr, hre⟩
  rw [wsm_results] at hr
  rcases List.mem_filterMap.1 hr with ⟨p, hp, hpe⟩
  refine ⟨p, hp, ?_⟩
  cases r with
  | inl j =>
      simp only [] at hre
      exact Option.noConfusion hre
  | inr dt =>
      simp only [] at hre
      injection hre with hre
      rw [hre] at hpe
      exact hpe

theorem wsm_final_ranking_mem {metrics : List MetricWeightInput}
    {rows : List Row} {policy : Policy} {w : Dict ℚ} {limit : Option ℕ}
    {i : RankingItem}
    (hi : i ∈ wsm_final_ranking metrics rows policy w limit) :
    i ∈ wsm_ranking0 metrics rows policy w := by
  cases limit with
  | none =>
      rw [wsm_final_ranking] at hi
      exact (mem_sortByKey _ _ _).1 hi
  | some n =>
      rw [wsm_final_ranking] at hi
      exact (mem_sortByKey _ _ _).1 (List.mem_of_mem_take hi)

/-- A dropped ticker never reappears in the (sorted, truncated) ranking. -/
theorem wsm_drop_disjoint (metrics : List MetricWeightInput) (rows : List Row)
    (policy : Policy) (w : Dict ℚ) (limit : Option ℕ) (d : DroppedTicker)
    (i : RankingItem) (hd : d ∈ wsm_dropped metrics rows policy w)
    (hi : i ∈ wsm_final_ranking metrics rows policy w limit) :
    i.ticker ≠ d.ticker := by
  rcases wsm_dropped_origin hd with ⟨p₂, hp₂, hproc₂⟩
  rcases wsm_ranking0_origin (wsm_final_ranking_mem hi) with ⟨p₁, hp₁, hproc₁⟩
  have hti : i.ticker = p₁.1 :=
    process_ticker_inl_ticker _ _ _ _ _ _ _ _ _ hproc₁
  have htd : d.ticker = p₂.1 :=
    process_ticker_inr_ticker _ _ _ _ _ _ _ _ _ hproc₂
  intro he
  have hnd : ((build_ticker_metric_values (typeOf metrics) rows).map
      (fun p => p.1)).Nodup := by
    simpa [dkeys] using bmtv_keys_nodup (typeOf metrics) rows
  have hpp : p₁ = p₂ :=
    List.inj_on_of_nodup_map hnd hp₁ hp₂ (by rw [← hti, ← htd]; exact he)
  rw [hpp] at hproc₁
  rw [hproc₁] at hproc₂
  injection hproc₂ with hs
  exact Sum.noConfusion hs

set_option maxHeartbeats 4000000 in
/-- **C5** (counterexample). `B`'s two requested metrics are both null in
the requested year, so `B` satisfies "at least one requested metric is
null"; yet the `drop`-policy response neither ranks nor drops `B` — its
dropped list is empty. All-null entities are skipped when the per-ticker
value map is built and vanish silently, refuting the claimed "iff". -/
theorem C5_counterexample :
    calculate_wsm_score [⟨"m1", .benefit, 1⟩, ⟨"m2", .benefit, 1⟩]
        [("A", "m1", some 1), ("A", "m2", some 2),
         ("B", "m1", none), ("B", "m2", none)] .drop none =
      .ok ⟨[⟨"A", 1⟩], []⟩ ∧
    ("B", "m1", (none : Option ℚ)) ∈
      [("A", "m1", some (1 : ℚ)), ("A", "m2", some 2),
       ("B", "m1", none), ("B", "m2", none)] := by
  constructor
  · simp [calculate_wsm_score, wsm_final_ranking, wsm_ranking0, wsm_dropped,
      wsm_results, normalize_weights, dictOf, upsert, sumValues, typeOf,
      metric_type_by_name, dlookup, build_ticker_metric_values, upsertInner,
      adjustValue, missing_metrics_of, process_ticker, ticker_score,
      normalized_value, clamp01, min_by_metric, max_by_metric, metric_column,
      sortByKey, insertSorted, available_weight_sum, Bind.bind, Except.bind,
      pure, Except.pure, List.dedup_cons_of_mem, List.dedup_cons_of_not_mem,
      List.dedup_nil, List.cons_ne_nil, List.filterMap, List.max?, List.min?,
      List.foldl, List.foldr]
    norm_num [dlookup, Option.getD, round6_one, min_def, max_def,
      List.cons_ne_nil]
  · simp

/-- **C5** (amended): under the `drop` policy, (1) among entities that have
at least one non-null fetched value, an entity is dropped — with the exact
missing metric names recorded — iff some requested metric has no value for
it, and is ranked with the full-divisor score otherwise; (2) an entity
*all* of whose fetched values are null never appears at all, in neither the
ranking nor the dropped list (where the claim's "iff" fails); and (3) a
dropped entity never appears in the returned ranking. -/
theorem C5_amended :
    (∀ (requested : List String) (w : Dict ℚ) (tys : String → MType)
       (minOf maxOf : String → ℚ) (tk : String) (mvals : Dict ℚ),
      (missing_metrics_of requested mvals ≠ [] →
        process_ticker .drop requested w tys minOf maxOf tk mvals =
          some (.inr ⟨tk, "Dropped due to missing metrics",
            some (missing_metrics_of requested mvals)⟩)) ∧
      (missing_metrics_of requested mvals = [] →
        process_ticker .drop requested w tys minOf maxOf tk mvals =
          some (.inl ⟨tk, round6 (ticker_score tys w minOf maxOf 1 mvals)⟩))) ∧
    (∀ (tys : String → MType) (rows : List Row) (t : String),
      (∀ r ∈ rows, r.1 = t → r.2.2 = none) →
      t ∉ dkeys (build_ticker_metric_values tys rows)) ∧
    (∀ (metrics : List MetricWeightInput) (rows : List Row)
       (limit : Option ℕ) (out : WSMScoreOutput),
      calculate_wsm_score metrics rows .drop limit = .ok out →
      ∀ d ∈ out.dropped_tickers, ∀ i ∈ out.ranking, i.ticker ≠ d.ticker) := by
  refine ⟨fun requested w tys minOf maxOf tk mvals =>
      ⟨process_ticker_drop_of_missing requested w tys minOf maxOf tk mvals,
       process_ticker_drop_of_complete requested w tys minOf maxOf tk mvals⟩,
    fun tys rows t h => bmtv_absent_of_all_null tys rows t h,
    fun metrics rows limit out hok d hd i hi => ?_⟩
  rcases calculate_wsm_score_ok_inv hok with ⟨w, hwe, hrank, hdrop⟩
  rw [hdrop] at hd
  rw [hrank] at hi
  exact wsm_drop_disjoint metrics rows .drop w limit d i hd hi

set_option maxHeartbeats 4000000 in
/-- Witness for `C5_amended`: a ticker with `m2` missing is dropped with
exactly `["m2"]` recorded; an all-null ticker is absent from the value map;
and in a concrete response with one ranked and one dropped ticker the two
never coincide. -/
theorem C5_amended_witness :
    (process_ticker .drop ["m1", "m2"] [("m1", (1 : ℚ))]
        (fun _ => MType.benefit) (fun _ => (0 : ℚ)) (fun _ => (1 : ℚ)) "B"
        [("m1", 5)] =
      some (.inr ⟨"B", "Dropped due to missing metrics",
        some (missing_metrics_of ["m1", "m2"] [("m1", (5 : ℚ))])⟩)) ∧
    "B" ∉ dkeys (build_ticker_metric_values (fun _ => MType.benefit)
      [("A", "m1", some 1), ("B", "m1", none)]) ∧
    (∀ d ∈ (⟨[⟨"A", 1⟩], [⟨"B", "Dropped due to missing metrics",
          some ["m2"]⟩]⟩ : WSMScoreOutput).dropped_tickers,
      ∀ i ∈ (⟨[⟨"A", 1⟩], [⟨"B", "Dropped due to missing metrics",
          some ["m2"]⟩]⟩ : WSMScoreOutput).ranking, i.ticker ≠ d.ticker) := by
  have hok : calculate_wsm_score
      [⟨"m1", MType.benefit, 1⟩, ⟨"m2", MType.benefit, 1⟩]
      [("A", "m1", some 2), ("A", "m2", some 2), ("B", "m1", some 2)]
      .drop none =
      .ok ⟨[⟨"A", 1⟩], [⟨"B", "Dropped due to missing metrics",
        some ["m2"]⟩]⟩ := by
    simp [calculate_wsm_score, wsm_final_ranking, wsm_ranking0, wsm_dropped,
      wsm_results, normalize_weights, dictOf, upsert, sumValues, typeOf,
      metric_type_by_name, dlookup, build_ticker_metric_values, upsertInner,
      adjustValue, missing_metrics_of, process_ticker, ticker_score,
      normalized_value, clamp01, min_by_metric, max_by_metric, metric_column,
      sortByKey, insertSorted, available_weight_sum, Bind.bind, Except.bind,
      pure, Except.pure, List.dedup_cons_of_mem, List.dedup_cons_of_not_mem,
      List.dedup_nil, List.cons_ne_nil, List.filterMap, List.max?, List.min?,
      List.foldl, List.foldr]
    norm_num [dlookup, Option.getD, round6_one, min_def, max_def,
      List.cons_ne_nil]
  exact ⟨(C5_amended.1 ["m1", "m2"] [("m1", (1 : ℚ))] (fun _ => MType.benefit)
      (fun _ => (0 : ℚ)) (fun _ => (1 : ℚ)) "B" [("m1", 5)]).1 (by decide),
    C5_amended.2.1 (fun _ => MType.benefit)
      [("A", "m1", some 1), ("B", "m1", none)] "B" (by decide),
    C5_amended.2.2 [⟨"m1", MType.benefit, 1⟩, ⟨"m2", MType.benefit, 1⟩]
      [("A", "m1", some 2), ("A", "m2", some 2), ("B", "m1", some 2)] none
      _ hok⟩

/-! ### Claim C6: the `redistribute` policy -/

/-- Under `redistribute` no ticker is ever recorded as dropped. -/
theorem wsm_dropped_redistribute_nil (metrics : List MetricWeightInput)
    (rows : List Row) (w : Dict ℚ) :
    wsm_dropped metrics rows .redistribute w = [] := by
  rw [wsm_dropped, List.filterMap_eq_nil_iff]
  intro r hr
  rw [wsm_results] at hr
  rcases List.mem_filterMap.1 hr with ⟨p, hp, hpe⟩
  cases r with
  | inl i => rfl
  | inr dt =>
      exfalso
      rw [process_ticker] at hpe
      by_cases hS : available_weight_sum w p.2 ≤ 0
      · rw [if_pos hS] at hpe
        exact Option.noConfusion hpe
      · rw [if_neg hS] at hpe
        injection hpe with hpe
        exact Sum.noConfusion hpe

/-- When every ticker is silently excluded under `redistribute`, the
endpoint raises the 404 error rather than returning an empty ranking. -/
theorem calculate_wsm_score_redistribute_404 (metrics : List MetricWeightInput)
    (rows : List Row) (w : Dict ℚ) (limit : Option ℕ)
    (hm : metrics ≠ []) (hw : normalize_weights metrics = .ok w)
    (hrows : rows ≠ [])
    (hb : build_ticker_metric_values (typeOf metrics) rows ≠ [])
    (hrank : wsm_final_ranking metrics rows .redistribute w limit = []) :
    calculate_wsm_score metrics rows .redistribute limit =
      .error "No ranking could be computed for the provided parameters." := by
  rw [calculate_wsm_score]
  simp [hm, hw, hrows, hb, hrank, throw, throwThe, MonadExceptOf.throw,
    Bind.bind, Except.bind, pure, Except.pure]

theorem string_A_ne_B : ("A" : String) ≠ "B" := by decide

theorem string_B_ne_A : ("B" : String) ≠ "A" := by decide

set_option maxHeartbeats 4000000 in
/-- **C6** (counterexample). One entity `X` whose only available metric `B`
has weight `0`: its available weight sum is `0`, so it is excluded — and
since nothing remains, `calculate_wsm_score` raises the 404 error, contrary
to the claim's "no error is raised". -/
theorem C6_counterexample :
    available_weight_sum [("A", 1), ("B", 0)] [("B", (5 : ℚ))] ≤ 0 ∧
    calculate_wsm_score [⟨"A", .benefit, 1⟩, ⟨"B", .benefit, 0⟩]
        [("X", "A", none), ("X", "B", some 5)] .redistribute none =
      .error "No ranking could be computed for the provided parameters." := by
  constructor
  · norm_num [available_weight_sum, dlookup, Option.getD, string_A_ne_B]
  · simp [calculate_wsm_score, wsm_final_ranking, wsm_ranking0, wsm_dropped,
      wsm_results, normalize_weights, dictOf, upsert, sumValues, typeOf,
      metric_type_by_name, dlookup, build_ticker_metric_values, upsertInner,
      adjustValue, missing_metrics_of, process_ticker, ticker_score,
      normalized_value, clamp01, min_by_metric, max_by_metric, metric_column,
      sortByKey, insertSorted, available_weight_sum, Bind.bind, Except.bind,
      pure, Except.pure, List.dedup_cons_of_mem, List.dedup_cons_of_not_mem,
      List.dedup_nil, List.cons_ne_nil, List.filterMap, List.max?, List.min?,
      List.foldl, List.foldr]
    norm_num [dlookup, Option.getD, string_A_ne_B, string_B_ne_A,
      List.cons_ne_nil]

/-- **C6** (amended): per entity, the silent-exclusion behaviour is as
claimed — available weight sum `≤ 0` means no ranking entry and no dropped
entry, and a positive available weight sum yields a score whose per-metric
share is the metric's weight divided by that entity's available weight sum;
the dropped list under `redistribute` is always empty; but when *every*
entity is excluded the request does raise the 404 "No ranking could be
computed" error, so "no error is raised" does not hold globally. -/
theorem C6_amended :
    (∀ (requested : List String) (w : Dict ℚ) (tys : String → MType)
       (minOf maxOf : String → ℚ) (tk : String) (mvals : Dict ℚ),
      available_weight_sum w mvals ≤ 0 →
      process_ticker .redistribute requested w tys minOf maxOf tk mvals =
        none) ∧
    (∀ (requested : List String) (w : Dict ℚ) (tys : String → MType)
       (minOf maxOf : String → ℚ) (tk : String) (mvals : Dict ℚ),
      0 < available_weight_sum w mvals →
      process_ticker .redistribute requested w tys minOf maxOf tk mvals =
        some (.inl ⟨tk, round6 ((mvals.map fun p =>
          (dlookup p.1 w).getD 0 / available_weight_sum w mvals *
            normalized_value (tys p.1) (minOf p.1) (maxOf p.1) p.2).sum)⟩)) ∧
    (∀ (metrics : List MetricWeightInput) (rows : List Row) (w : Dict ℚ),
      wsm_dropped metrics rows .redistribute w = []) ∧
    (∀ (metrics : List MetricWeightInput) (rows : List Row) (w : Dict ℚ)
       (limit : Option ℕ),
      metrics ≠ [] → normalize_weights metrics = .ok w → rows ≠ [] →
      build_ticker_metric_values (typeOf metrics) rows ≠ [] →
      wsm_final_ranking metrics rows .redistribute w limit = [] →
      calculate_wsm_score metrics rows .redistribute limit =
        .error "No ranking could be computed for the provided parameters.") := by
  refine ⟨fun requested w tys minOf maxOf tk mvals hS => ?_,
    fun requested w tys minOf maxOf tk mvals hS => ?_,
    fun metrics rows w => wsm_dropped_redistribute_nil metrics rows w,
    fun metrics rows w limit hm hw hrows hb hrank =>
      calculate_wsm_score_redistribute_404 metrics rows w limit hm hw hrows
        hb hrank⟩
  · rw [process_ticker]
    rw [if_pos hS]
  · rw [process_ticker]
    rw [if_neg (not_le.2 hS)]
    rfl

set_option maxHeartbeats 4000000 in
/-- Witness for `C6_amended`: a zero-available-weight ticker is silently
skipped; a positive-available-weight ticker gets the redistributed share;
the dropped list is empty; and the all-excluded universe yields the 404
error. -/
theorem C6_amended_witness :
    (process_ticker .redistribute ["A", "B"] [("A", 1), ("B", 0)]
        (fun _ => MType.benefit) (fun _ => (0 : ℚ)) (fun _ => (5 : ℚ)) "X"
        [("B", 5)] = none) ∧
    (process_ticker .redistribute ["A"] [("A", 1)]
        (fun _ => MType.benefit) (fun _ => (0 : ℚ)) (fun _ => (2 : ℚ)) "X"
        [("A", 2)] =
      some (.inl ⟨"X", round6 (([(("A" : String), (2 : ℚ))].map fun p =>
        (dlookup p.1 [("A", (1 : ℚ))]).getD 0 /
            available_weight_sum [("A", 1)] [("A", 2)] *
          normalized_value ((fun _ => MType.benefit) p.1)
            ((fun _ => (0 : ℚ)) p.1) ((fun _ => (2 : ℚ)) p.1) p.2).sum)⟩)) ∧
    wsm_dropped [⟨"A", MType.benefit, 1⟩] [("X", "A", some 2)]
      .redistribute [("A", 1)] = [] ∧
    calculate_wsm_score [⟨"A", .benefit, 1⟩, ⟨"B", .benefit, 0⟩]
        [("X", "A", none), ("X", "B", some 5)] .redistribute none =
      .error "No ranking could be computed for the provided parameters." := by
  have hw : normalize_weights [⟨"A", .benefit, 1⟩, ⟨"B", .benefit, 0⟩] =
      .ok [("A", 1), ("B", 0)] := by
    simp [normalize_weights, clean_weight_numbers, normalize_weight_map,
      dictOf, upsert, sumValues, Bind.bind, Except.bind, pure, Except.pure,
      List.foldl]
  have hrank : wsm_final_ranking [⟨"A", .benefit, 1⟩, ⟨"B", .benefit, 0⟩]
      [("X", "A", none), ("X", "B", some 5)] .redistribute
      [("A", 1), ("B", 0)] none = [] := by
    simp [wsm_final_ranking, wsm_ranking0, wsm_results, typeOf,
      metric_type_by_name, dictOf, upsert, dlookup,
      build_ticker_metric_values, upsertInner, adjustValue,
      missing_metrics_of, process_ticker, available_weight_sum, sortByKey,
      List.dedup_cons_of_mem, List.dedup_cons_of_not_mem, List.dedup_nil,
      List.cons_ne_nil, List.filterMap, List.foldl, List.foldr]
  refine ⟨C6_amended.1 ["A", "B"] [("A", 1), ("B", 0)] (fun _ => MType.benefit)
      (fun _ => (0 : ℚ)) (fun _ => (5 : ℚ)) "X" [("B", 5)]
      (by norm_num [available_weight_sum, dlookup, Option.getD,
        string_A_ne_B]),
    C6_amended.2.1 ["A"] [("A", 1)] (fun _ => MType.benefit)
      (fun _ => (0 : ℚ)) (fun _ => (2 : ℚ)) "X" [("A", 2)]
      (by norm_num [available_weight_sum, dlookup, Option.getD]),
    C6_amended.2.2.1 [⟨"A", MType.benefit, 1⟩] [("X", "A", some 2)]
      [("A", 1)],
    C6_amended.2.2.2 [⟨"A", .benefit, 1⟩, ⟨"B", .benefit, 0⟩]
      [("X", "A", none), ("X", "B", some 5)] [("A", 1), ("B", 0)] none
      (by simp) hw (by simp) (by simp [build_ticker_metric_values,
        upsertInner, adjustValue, typeOf, metric_type_by_name, dictOf,
        upsert, dlookup, List.foldl]) hrank⟩

/-! ### Claim C9: every produced score lies in [0, 1] -/

theorem normalized_value_nonneg (t : MType) (minv maxv v : ℚ) :
    0 ≤ normalized_value t minv maxv v := by
  cases t with
  | benefit => exact clamp01_nonneg _
  | cost =>
      simp only [normalized_value]
      split_ifs
      · exact le_refl 0
      · exact clamp01_nonneg _

theorem normalized_value_le_one (t : MType) (minv maxv v : ℚ) :
    normalized_value t minv maxv v ≤ 1 := by
  cases t with
  | benefit => exact clamp01_le_one _
  | cost =>
      simp only [normalized_value]
      split_ifs
      · exact zero_le_one
      · exact clamp01_le_one _

theorem list_sum_div (l : List ℚ) (c : ℚ) : (l.map (· / c)).sum = l.sum / c := by
  induction l with
  | nil => simp
  | cons x l ih => simp [ih, add_div]

/-- Replacing or inserting a key can only shrink the value total by the
value it overwrites, for dicts with non-negative values. -/
theorem sumValues_upsert_le (k : String) (v : ℚ) (d : Dict ℚ)
    (hd : ∀ p ∈ d, 0 ≤ p.2) :
    sumValues (upsert k v d) ≤ sumValues d + v := by
  induction d with
  | nil => simp [upsert, sumValues]
  | cons p d ih =>
      obtain ⟨k', v'⟩ := p
      have hv' : 0 ≤ v' := hd (k', v') (List.mem_cons_self _ _)
      have htail : ∀ q ∈ d, 0 ≤ q.2 :=
        fun q hq => hd q (List.mem_cons_of_mem _ hq)
      by_cases hk : k' = k
      · rw [upsert, if_pos hk]
        simp only [sumValues, List.map_cons, List.sum_cons]
        have : 0 ≤ (d.map (·.2)).sum := by
          apply List.sum_nonneg
          intro x hx
          obtain ⟨q, hq, rfl⟩ := List.mem_map.1 hx
          exact htail q hq
        linarith
      · rw [upsert, if_neg hk]
        simp only [sumValues, List.map_cons, List.sum_cons]
        have := ih htail
        simp only [sumValues] at this
        linarith

theorem sumValues_foldl_upsert_le :
    ∀ (l : List (String × ℚ)) (acc : Dict ℚ), (∀ p ∈ acc, 0 ≤ p.2) →
    (∀ p ∈ l, 0 ≤ p.2) →
    sumValues (l.foldl (fun d kv => upsert kv.1 kv.2 d) acc) ≤
      sumValues acc + sumValues l := by
  intro l
  induction l with
  | nil =>
      intro acc _ _
      simp [sumValues]
  | cons q l ih =>
      intro acc hacc hl
      obtain ⟨k, v⟩ := q
      simp only [List.foldl_cons]
      have hacc' : ∀ p ∈ upsert k v acc, 0 ≤ p.2 := by
        intro p hp
        rcases mem_upsert_sub hp with rfl | hp'
        · exact hl (k, v) (List.mem_cons_self _ _)
        · exact hacc p hp'
      have hl' : ∀ p ∈ l, 0 ≤ p.2 := fun p hp => hl p (List.mem_cons_of_mem _ hp)
      have h1 := ih (upsert k v acc) hacc' hl'
      have h2 := sumValues_upsert_le k v acc hacc
      simp only [sumValues, List.map_cons, List.sum_cons] at *
      linarith

/-- Building a Python dict from a pair list with non-negative values never
increases the value total (duplicate keys keep only the last value). -/
theorem sumValues_dictOf_le (l : List (String × ℚ)) (hl : ∀ p ∈ l, 0 ≤ p.2) :
    sumValues (dictOf l) ≤ sumValues l := by
  have := sumValues_foldl_upsert_le l [] (by simp) hl
  simpa [dictOf, sumValues] using this

/-- Even with duplicate metric names (claim C1's corner), the resolved
explicit weight map total never exceeds 1. -/
theorem normalize_weights_ok_sum_le {metrics : List MetricWeightInput}
    {out : Dict ℚ} (hw : ∀ m ∈ metrics, 0 ≤ m.weight)
    (h : normalize_weights metrics = .ok out) : sumValues out ≤ 1 := by
  rw [normalize_weights] at h
  split_ifs at h with htot
  push_neg at htot
  simp only [Except.ok.injEq] at h
  subst h
  have hLnn : ∀ p ∈ (metrics.map fun m =>
      (m.metric_name, m.weight / (metrics.map (·.weight)).sum)), 0 ≤ p.2 := by
    intro p hp
    obtain ⟨m, hm, rfl⟩ := List.mem_map.1 hp
    exact div_nonneg (hw m hm) htot.le
  calc sumValues (dictOf (metrics.map fun m =>
        (m.metric_name, m.weight / (metrics.map (·.weight)).sum)))
      ≤ sumValues (metrics.map fun m =>
        (m.metric_name, m.weight / (metrics.map (·.weight)).sum)) :=
        sumValues_dictOf_le _ hLnn
    _ = sumValues (metrics.map fun m => (m.metric_name, m.weight)) /
        (metrics.map (·.weight)).sum := by
        rw [show (metrics.map fun m =>
            (m.metric_name, m.weight / (metrics.map (·.weight)).sum)) =
            ((metrics.map fun m => (m.metric_name, m.weight)).map
              (fun p => (p.1, p.2 / (metrics.map (·.weight)).sum))) from by
          simp [List.map_map, Function.comp]]
        rw [sumValues_map_div]
    _ = (metrics.map (·.weight)).sum / (metrics.map (·.weight)).sum := by
        rw [show sumValues (metrics.map fun m => (m.metric_name, m.weight)) =
          (metrics.map (·.weight)).sum from by
          simp [sumValues, List.map_map, Function.comp_def]]
    _ ≤ 1 := le_of_eq (div_self (ne_of_gt htot))

/-- Per-available-metric shares in `[0, …]` and a share total bounded by the
divisor force the accumulated score into `[0, 1]`. -/
theorem ticker_score_bounds (tys : String → MType) (w : Dict ℚ)
    (minOf maxOf : String → ℚ) (wd : ℚ) (mvals : Dict ℚ)
    (hw : ∀ p ∈ w, 0 ≤ p.2) (hwd : 0 < wd)
    (hshare : (mvals.map fun p => (dlookup p.1 w).getD 0).sum ≤ wd) :
    0 ≤ ticker_score tys w minOf maxOf wd mvals ∧
      ticker_score tys w minOf maxOf wd mvals ≤ 1 := by
  constructor
  · rw [ticker_score]
    apply List.sum_nonneg
    intro x hx
    obtain ⟨p, hp, rfl⟩ := List.mem_map.1 hx
    exact mul_nonneg (div_nonneg (dlookup_getD_nonneg hw p.1) hwd.le)
      (normalized_value_nonneg _ _ _ _)
  · have h1 : ticker_score tys w minOf maxOf wd mvals ≤
        (mvals.map fun p => (dlookup p.1 w).getD 0 / wd).sum := by
      rw [ticker_score]
      apply List.sum_le_sum
      intro p hp
      exact mul_le_of_le_one_right
        (div_nonneg (dlookup_getD_nonneg hw p.1) hwd.le)
        (normalized_value_le_one _ _ _ _)
    have h2 : (mvals.map fun p => (dlookup p.1 w).getD 0 / wd).sum =
        (mvals.map fun p => (dlookup p.1 w).getD 0).sum / wd := by
      rw [← list_sum_div, List.map_map]
      rfl
    have h3 : (mvals.map fun p => (dlookup p.1 w).getD 0).sum / wd ≤ wd / wd :=
      div_le_div_of_nonneg_right hshare hwd.le
    rw [div_self (ne_of_gt hwd)] at h3
    calc ticker_score tys w minOf maxOf wd mvals
        ≤ (mvals.map fun p => (dlookup p.1 w).getD 0 / wd).sum := h1
      _ = (mvals.map fun p => (dlookup p.1 w).getD 0).sum / wd := h2
      _ ≤ 1 := h3

/-- Any ranking entry emitted by the policy loop has a score in `[0, 1]`,
under every missing-data policy, given a non-negative weight map totalling
at most 1 and distinct available metric keys. -/
theorem process_ticker_score_bounds (policy : Policy)
    (requested : List String) (w : Dict ℚ) (tys : String → MType)
    (minOf maxOf : String → ℚ) (tk : String) (mvals : Dict ℚ)
    (i : RankingItem) (hw : ∀ p ∈ w, 0 ≤ p.2) (hsum : sumValues w ≤ 1)
    (hnd : (dkeys mvals).Nodup)
    (h : process_ticker policy requested w tys minOf maxOf tk mvals =
      some (.inl i)) : 0 ≤ i.score ∧ i.score ≤ 1 := by
  have hshare1 : (mvals.map fun p => (dlookup p.1 w).getD 0).sum ≤ 1 := by
    calc (mvals.map fun p => (dlookup p.1 w).getD 0).sum
        = ((dkeys mvals).map fun k => (dlookup k w).getD 0).sum :=
          available_weight_sum_keys w mvals
      _ ≤ sumValues w := sum_dlookup_le_sumValues w hw (dkeys mvals) hnd
      _ ≤ 1 := hsum
  cases policy with
  | zero =>
      rw [process_ticker] at h
      injection h with h
      injection h with h
      rw [← h]
      exact ⟨round6_nonneg (ticker_score_bounds tys w minOf maxOf 1 mvals hw
          one_pos hshare1).1,
        round6_le_one (ticker_score_bounds tys w minOf maxOf 1 mvals hw
          one_pos hshare1).2⟩
  | drop =>
      rw [process_ticker] at h
      by_cases hmiss : missing_metrics_of requested mvals ≠ []
      · rw [if_pos hmiss] at h
        injection h with h
        exact Sum.noConfusion h
      · rw [if_neg hmiss] at h
        injection h with h
        injection h with h
        rw [← h]
        exact ⟨round6_nonneg (ticker_score_bounds tys w minOf maxOf 1 mvals hw
            one_pos hshare1).1,
          round6_le_one (ticker_score_bounds tys w minOf maxOf 1 mvals hw
            one_pos hshare1).2⟩
  | redistribute =>
      rw [process_ticker] at h
      by_cases hS : available_weight_sum w mvals ≤ 0
      · rw [if_pos hS] at h
        exact Option.noConfusion h
      · rw [if_neg hS] at h
        injection h with h
        injection h with h
        rw [← h]
        have hSpos : 0 < available_weight_sum w mvals := not_le.1 hS
        have hshareS : (mvals.map fun p => (dlookup p.1 w).getD 0).sum ≤
            available_weight_sum w mvals := le_of_eq rfl
        exact ⟨round6_nonneg (ticker_score_bounds tys w minOf maxOf _ mvals hw
            hSpos hshareS).1,
          round6_le_one (ticker_score_bounds tys w minOf maxOf _ mvals hw
            hSpos hshareS).2⟩

/-- Inner value dicts of the per-ticker value map have distinct keys. -/
theorem upsertInner_inner_nodup (t m : String) (v : ℚ) (d : Dict (Dict ℚ))
    (hd : ∀ p ∈ d, (dkeys p.2).Nodup) :
    ∀ p ∈ upsertInner t m v d, (dkeys p.2).Nodup := by
  induction d with
  | nil =>
      intro p hp
      rcases List.mem_singleton.1 hp with rfl
      simp [dkeys]
  | cons q d ih =>
      obtain ⟨t', inner⟩ := q
      intro p hp
      by_cases ht : t' = t
      · rw [upsertInner, if_pos ht] at hp
        rcases List.mem_cons.1 hp with rfl | hp'
        · exact dkeys_upsert_nodup m v inner
            (hd (t', inner) (List.mem_cons_self _ _))
        · exact hd p (List.mem_cons_of_mem _ hp')
      · rw [upsertInner, if_neg ht] at hp
        rcases List.mem_cons.1 hp with rfl | hp'
        · exact hd (t', inner) (List.mem_cons_self _ _)
        · exact ih (fun q hq => hd q (List.mem_cons_of_mem _ hq)) p hp'

theorem bmtv_inner_nodup (tys : String → MType) (rows : List Row) :
    ∀ p ∈ build_ticker_metric_values tys rows, (dkeys p.2).Nodup := by
  rw [build_ticker_metric_values]
  suffices haux : ∀ (l : List Row) (acc : Dict (Dict ℚ)),
      (∀ p ∈ acc, (dkeys p.2).Nodup) →
      ∀ p ∈ l.foldl (fun acc r =>
        match r with
        | (_, _, none) => acc
        | (tk, mid, some x) => upsertInner tk mid (adjustValue (tys mid) x) acc)
        acc, (dkeys p.2).Nodup by
    exact haux rows [] (by simp)
  intro l
  induction l with
  | nil =>
      intro acc hacc
      exact hacc
  | cons r l ih =>
      intro acc hacc
      obtain ⟨tk, mid, v?⟩ := r
      simp only [List.foldl_cons]
      cases v? with
      | none => exact ih acc hacc
      | some x => exact ih _ (upsertInner_inner_nodup _ _ _ _ hacc)

theorem single_ticker_values_keys_nodup (tys : String → MType)
    (rows : List Row) (ticker : String) :
    (dkeys (single_ticker_values tys rows ticker)).Nodup := by
  rw [single_ticker_values]
  suffices haux : ∀ (l : List Row) (acc : Dict ℚ), (dkeys acc).Nodup →
      (dkeys (l.foldl (fun acc r =>
        match r with
        | (tk, mid, some x) =>
            if tk = ticker then upsert mid (adjustValue (tys mid) x) acc else acc
        | (_, _, none) => acc) acc)).Nodup by
    exact haux rows [] (by simp [dkeys])
  intro l
  induction l with
  | nil =>
      intro acc h
      exact h
  | cons r l ih =>
      intro acc h
      obtain ⟨tk, mid, v?⟩ := r
      simp only [List.foldl_cons]
      cases v? with
      | none => exact ih acc h
      | some x =>
          simp only []
          by_cases htk : tk = ticker
          · rw [if_pos htk]
            exact ih _ (dkeys_upsert_nodup _ _ _ h)
          · rw [if_neg htk]
            exact ih acc h

theorem apply_overrides_keys_nodup (names : List String) (tys : String → MType)
    (ov : Option (Dict ℚ)) (tv : Dict ℚ) (h : (dkeys tv).Nodup) :
    (dkeys (apply_overrides names tys ov tv)).Nodup := by
  cases ov with
  | none => exact h
  | some d =>
      rw [apply_overrides]
      induction d generalizing tv with
      | nil => exact h
      | cons p d ih =>
          simp only [List.foldl_cons]
          by_cases hp : p.1 ∈ names
          · rw [if_pos hp]
            exact ih _ (dkeys_upsert_nodup _ _ _ h)
          · rw [if_neg hp]
            exact ih tv h

/-- All the `return None` guards passed, the single-ticker score is a
`[0, 1]` value: shares are non-negative and total at most the divisor. -/
theorem compute_single_ticker_score_bounds (metrics : List MetricWeightInput)
    (rows : List Row) (ticker : String) (policy : Policy)
    (ov : Option (Dict ℚ)) (s : ℚ) (hw : ∀ mw ∈ metrics, 0 ≤ mw.weight)
    (h : compute_single_ticker_score metrics rows ticker policy ov = some s) :
    0 ≤ s ∧ s ≤ 1 := by
  rw [compute_single_ticker_score] at h
  simp only [] at h
  by_cases hm : metrics = []
  · rw [if_pos hm] at h
    exact Option.noConfusion h
  rw [if_neg hm] at h
  by_cases htot : (metrics.map (·.weight)).sum ≤ 0
  · rw [if_pos htot] at h
    exact Option.noConfusion h
  rw [if_neg htot] at h
  by_cases hrows : rows = []
  · rw [if_pos hrows] at h
    exact Option.noConfusion h
  rw [if_neg hrows] at h
  by_cases htv : apply_overrides (metrics.map (·.metric_name)) (typeOf metrics)
      ov (single_ticker_values (typeOf metrics) rows ticker) = []
  · rw [if_pos htv] at h
    exact Option.noConfusion h
  rw [if_neg htv] at h
  have htot' : 0 < (metrics.map (·.weight)).sum := not_le.1 htot
  have hwok : normalize_weights metrics = .ok (dictOf (metrics.map fun m =>
      (m.metric_name, m.weight / (metrics.map (·.weight)).sum))) := by
    rw [normalize_weights, if_neg htot]
  have hwnn : ∀ p ∈ dictOf (metrics.map fun m =>
      (m.metric_name, m.weight / (metrics.map (·.weight)).sum)), 0 ≤ p.2 :=
    normalize_weights_ok_nonneg hw hwok
  have hsum1 : sumValues (dictOf (metrics.map fun m =>
      (m.metric_name, m.weight / (metrics.map (·.weight)).sum))) ≤ 1 :=
    normalize_weights_ok_sum_le hw hwok
  have hndtv : (dkeys (apply_overrides (metrics.map (·.metric_name))
      (typeOf metrics) ov (single_ticker_values (typeOf metrics) rows
        ticker))).Nodup :=
    apply_overrides_keys_nodup _ _ _ _
      (single_ticker_values_keys_nodup (typeOf metrics) rows ticker)
  have hshare1 : available_weight_sum (dictOf (metrics.map fun m =>
      (m.metric_name, m.weight / (metrics.map (·.weight)).sum)))
      (apply_overrides (metrics.map (·.metric_name)) (typeOf metrics) ov
        (single_ticker_values (typeOf metrics) rows ticker)) ≤ 1 := by
    rw [available_weight_sum_keys]
    exact le_trans (sum_dlookup_le_sumValues _ hwnn _ hndtv) hsum1
  cases policy with
  | zero =>
      injection h with h
      subst h
      exact ⟨round6_nonneg (ticker_score_bounds _ _ _ _ 1 _ hwnn one_pos
          hshare1).1,
        round6_le_one (ticker_score_bounds _ _ _ _ 1 _ hwnn one_pos
          hshare1).2⟩
  | drop =>
      by_cases hmiss : missing_metrics_of ((metrics.map (·.metric_name)).dedup)
          (apply_overrides (metrics.map (·.metric_name)) (typeOf metrics) ov
            (single_ticker_values (typeOf metrics) rows ticker)) ≠ []
      · rw [if_pos hmiss] at h
        exact Option.noConfusion h
      · rw [if_neg hmiss] at h
        injection h with h
        subst h
        exact ⟨round6_nonneg (ticker_score_bounds _ _ _ _ 1 _ hwnn one_pos
            hshare1).1,
          round6_le_one (ticker_score_bounds _ _ _ _ 1 _ hwnn one_pos
            hshare1).2⟩
  | redistribute =>
      by_cases hS : available_weight_sum (dictOf (metrics.map fun m =>
          (m.metric_name, m.weight / (metrics.map (·.weight)).sum)))
          (apply_overrides (metrics.map (·.metric_name)) (typeOf metrics) ov
            (single_ticker_values (typeOf metrics) rows ticker)) ≤ 0
      · rw [if_pos hS] at h
        exact Option.noConfusion h
      · rw [if_neg hS] at h
        injection h with h
        subst h
        exact ⟨round6_nonneg (ticker_score_bounds _ _ _ _ _ _ hwnn
            (not_le.1 hS) (le_of_eq rfl)).1,
          round6_le_one (ticker_score_bounds _ _ _ _ _ _ hwnn
            (not_le.1 hS) (le_of_eq rfl)).2⟩

/-- Every ranking score returned by `calculate_wsm_score` lies in `[0, 1]`
(given the schema's non-negative request weights). -/
theorem calculate_wsm_score_ranking_bounds (metrics : List MetricWeightInput)
    (rows : List Row) (policy : Policy) (limit : Option ℕ)
    (out : WSMScoreOutput) (hw : ∀ mw ∈ metrics, 0 ≤ mw.weight)
    (hok : calculate_wsm_score metrics rows policy limit = .ok out) :
    ∀ i ∈ out.ranking, 0 ≤ i.score ∧ i.score ≤ 1 := by
  intro i hi
  rcases calculate_wsm_score_ok_inv hok with ⟨w, hwe, hrank, -⟩
  rw [hrank] at hi
  rcases wsm_ranking0_origin (wsm_final_ranking_mem hi) with ⟨p, hp, hproc⟩
  exact process_ticker_score_bounds policy _ w (typeOf metrics) _ _ p.1 p.2 i
    (normalize_weights_ok_nonneg hw hwe) (normalize_weights_ok_sum_le hw hwe)
    (bmtv_inner_nodup (typeOf metrics) rows p hp) hproc

/-- Preview items carry the base ranking's scores unchanged. -/
theorem preview_score_origin {metrics : List MetricWeightInput}
    {score_rows coverage_rows : List Row} {total_metrics : ℕ}
    {policy : Policy} {limit : Option ℕ} {out : PreviewOutput}
    (h : calculate_wsm_score_preview metrics score_rows coverage_rows
      total_metrics policy limit = .ok out) :
    ∃ base, calculate_wsm_score metrics score_rows policy limit = .ok base ∧
      ∀ it ∈ out.ranking, ∃ i ∈ base.ranking, it.score = i.score := by
  rw [calculate_wsm_score_preview] at h
  obtain ⟨base, hbase, h⟩ := except_bind_ok h
  refine ⟨base, hbase, ?_⟩
  simp only [pure, Except.pure, Except.ok.injEq] at h
  subst h
  intro it hit
  simp only [] at hit
  obtain ⟨p, hp, hpe⟩ := List.mem_map.1 hit
  have hsnd : p.2 ∈ sortByKey preview_key (base.ranking.map fun i0 =>
      PreviewItem.mk 0 i0.ticker i0.score
        (if i0.ticker ∈ tickers_of coverage_rows then
          coverage_of coverage_rows total_metrics i0.ticker
        else ⟨0, total_metrics, 0⟩)) := by
    have hm := List.mem_map_of_mem Prod.snd hp
    rwa [List.enumFrom_map_snd] at hm
  obtain ⟨i, hi, hie⟩ := List.mem_map.1 ((mem_sortByKey _ _ _).1 hsnd)
  refine ⟨i, hi, ?_⟩
  rw [← hpe, ← hie]

/-- Summing a non-negative function over a duplicate-free sublist of keys is
bounded by the sum over the full key list. -/
theorem sum_map_le_of_nodup_subset (f : String → ℚ) (hf : ∀ k, 0 ≤ f k)
    (ks l : List String) (hnd : ks.Nodup) (hsub : ks ⊆ l) :
    (ks.map f).sum ≤ (l.map f).sum := by
  induction ks generalizing l with
  | nil =>
      apply List.sum_nonneg
      intro x hx
      obtain ⟨k, -, rfl⟩ := List.mem_map.1 hx
      exact hf k
  | cons k ks ih =>
      simp only [List.nodup_cons] at hnd
      have hk : k ∈ l := hsub (List.mem_cons_self _ _)
      have hsum : (l.map f).sum = f k + ((l.erase k).map f).sum := by
        rw [List.Perm.sum_eq (((List.perm_cons_erase hk)).map f)]
        simp
      rw [List.map_cons, List.sum_cons, hsum]
      have hsub' : ks ⊆ l.erase k := by
        intro a ha
        have hal : a ∈ l := hsub (List.mem_cons_of_mem _ ha)
        have hak : a ≠ k := fun hh => hnd.1 (hh ▸ ha)
        exact (List.mem_erase_of_ne hak).2 hal
      exact add_le_add_left (ih (l.erase k) hnd.2 hsub') _

/-- The scorecard metric loop's accumulated total is exactly the sum of the
contributions of the catalog entries with available values. -/
theorem scorecard_fold_total_eq (weights : Dict ℚ) (wd : ℚ)
    (minOf maxOf : String → ℚ) (mvals : Dict ℚ)
    (entries : List MetricMappingEntry) :
    (scorecard_fold weights wd minOf maxOf mvals entries).2.1 =
      ((entries.filter (fun e => (dlookup e.metric_name mvals).isSome)).map
        (fun e => (dlookup e.metric_name weights).getD 0 / wd *
          normalized_value e.type (minOf e.metric_name) (maxOf e.metric_name)
            ((dlookup e.metric_name mvals).getD 0))).sum := by
  suffices haux : ∀ (l : List MetricMappingEntry) (acc : ℕ × ℚ × ℚ × ℚ × ℚ),
      (l.foldl (fun acc e =>
        let (used, total, bal, inc, cf) := acc
        match dlookup e.metric_name mvals with
        | none => (used, total, bal, inc, cf)
        | some v =>
            let normalized := normalized_value e.type (minOf e.metric_name)
              (maxOf e.metric_name) v
            let weight_share := (dlookup e.metric_name weights).getD 0 / wd
            let contribution := weight_share * normalized
            let sec := normalize_section_key e.msection
            ((used + 1 : ℕ), total + contribution,
              bal + (if sec = "balance" then contribution else 0),
              inc + (if sec = "income" then contribution else 0),
              cf + (if sec = "cash_flow" then contribution else 0))) acc).2.1 =
      acc.2.1 + ((l.filter
          (fun e => (dlookup e.metric_name mvals).isSome)).map
        (fun e => (dlookup e.metric_name weights).getD 0 / wd *
          normalized_value e.type (minOf e.metric_name) (maxOf e.metric_name)
            ((dlookup e.metric_name mvals).getD 0))).sum by
    exact (haux entries (0, 0, 0, 0, 0)).trans (zero_add _)
  intro l
  induction l with
  | nil =>
      intro acc
      simp
  | cons e l ih =>
      intro acc
      obtain ⟨used, total, bal, inc, cf⟩ := acc
      simp only [List.foldl_cons]
      cases hl : dlookup e.metric_name mvals with
      | none =>
          simp only []
          rw [List.filter_cons_of_neg (by simp [hl])]
          exact ih (used, total, bal, inc, cf)
      | some v =>
          simp only []
          rw [List.filter_cons_of_pos (by simp [hl]), List.map_cons,
            List.sum_cons]
          simp only [hl, Option.getD_some]
          rw [ih]
          ring

/-- Partial sums of the per-entry contributions stay within `[0, 1]`. -/
theorem scorecard_contrib_sum_bounds (weights : Dict ℚ) (wd : ℚ)
    (minOf maxOf : String → ℚ) (mvals : Dict ℚ)
    (hits : List MetricMappingEntry)
    (hw : ∀ p ∈ weights, 0 ≤ p.2) (hwd : 0 < wd)
    (hshare : (hits.map
        (fun e => (dlookup e.metric_name weights).getD 0)).sum ≤ wd) :
    0 ≤ (hits.map (fun e => (dlookup e.metric_name weights).getD 0 / wd *
        normalized_value e.type (minOf e.metric_name) (maxOf e.metric_name)
          ((dlookup e.metric_name mvals).getD 0))).sum ∧
      (hits.map (fun e => (dlookup e.metric_name weights).getD 0 / wd *
        normalized_value e.type (minOf e.metric_name) (maxOf e.metric_name)
          ((dlookup e.metric_name mvals).getD 0))).sum ≤ 1 := by
  constructor
  · apply List.sum_nonneg
    intro x hx
    obtain ⟨e, -, rfl⟩ := List.mem_map.1 hx
    exact mul_nonneg (div_nonneg (dlookup_getD_nonneg hw e.metric_name) hwd.le)
      (normalized_value_nonneg _ _ _ _)
  · have h1 : (hits.map (fun e => (dlookup e.metric_name weights).getD 0 / wd *
        normalized_value e.type (minOf e.metric_name) (maxOf e.metric_name)
          ((dlookup e.metric_name mvals).getD 0))).sum ≤
        (hits.map (fun e => (dlookup e.metric_name weights).getD 0 / wd)).sum := by
      apply List.sum_le_sum
      intro e he
      exact mul_le_of_le_one_right
        (div_nonneg (dlookup_getD_nonneg hw e.metric_name) hwd.le)
        (normalized_value_le_one _ _ _ _)
    have h2 : (hits.map (fun e =>
        (dlookup e.metric_name weights).getD 0 / wd)).sum =
        (hits.map (fun e => (dlookup e.metric_name weights).getD 0)).sum / wd := by
      rw [← list_sum_div, List.map_map]
      rfl
    have h3 : (hits.map (fun e =>
        (dlookup e.metric_name weights).getD 0)).sum / wd ≤ wd / wd :=
      div_le_div_of_nonneg_right hshare hwd.le
    rw [div_self (ne_of_gt hwd)] at h3
    calc (hits.map (fun e => (dlookup e.metric_name weights).getD 0 / wd *
          normalized_value e.type (minOf e.metric_name) (maxOf e.metric_name)
            ((dlookup e.metric_name mvals).getD 0))).sum
        ≤ (hits.map (fun e =>
            (dlookup e.metric_name weights).getD 0 / wd)).sum := h1
      _ = (hits.map (fun e =>
            (dlookup e.metric_name weights).getD 0)).sum / wd := h2
      _ ≤ 1 := h3

/-- A scorecard card's total score lies in `[0, 1]`, for a non-negative
weight map totalling at most 1 and duplicate-free catalog metric names. -/
theorem compute_for_ticker_total_bounds (entries : List MetricMappingEntry)
    (weights : Dict ℚ) (policy : Policy) (minOf maxOf : String → ℚ)
    (total_metrics : ℕ) (mvals : Dict ℚ) (c : TickerComputed)
    (hw : ∀ p ∈ weights, 0 ≤ p.2) (hsum : sumValues weights ≤ 1)
    (hnde : (entries.map (·.metric_name)).Nodup)
    (h : compute_for_ticker entries weights policy minOf maxOf total_metrics
      mvals = some c) : 0 ≤ c.total_score ∧ c.total_score ≤ 1 := by
  rw [compute_for_ticker] at h
  simp only [] at h
  by_cases h1 : policy = .drop ∧ missing_metrics_of
      ((entries.map (·.metric_name)).dedup) mvals ≠ []
  · rw [if_pos h1] at h
    exact Option.noConfusion h
  rw [if_neg h1] at h
  have hksnd : ((entries.filter
      (fun e => (dlookup e.metric_name mvals).isSome)).map
      (·.metric_name)).Nodup :=
    List.Nodup.sublist (List.Sublist.map _ (List.filter_sublist _)) hnde
  have hlk : ((entries.filter
      (fun e => (dlookup e.metric_name mvals).isSome)).map
      (fun e => (dlookup e.metric_name weights).getD 0)).sum =
      (((entries.filter (fun e => (dlookup e.metric_name mvals).isSome)).map
        (·.metric_name)).map (fun k => (dlookup k weights).getD 0)).sum := by
    rw [List.map_map]
    rfl
  by_cases hred : policy = .redistribute
  · rw [if_pos hred] at h
    by_cases hS : available_weight_sum weights mvals ≤ 0
    · rw [if_pos hS] at h
      exact Option.noConfusion h
    · rw [if_neg hS] at h
      simp only [Option.map_some'] at h
      injection h with h
      have hsub : ((entries.filter
          (fun e => (dlookup e.metric_name mvals).isSome)).map
          (·.metric_name)) ⊆ dkeys mvals := by
        intro k hk
        obtain ⟨e, he, rfl⟩ := List.mem_map.1 hk
        have hs := (List.mem_filter.1 he).2
        by_contra hmem
        rw [← dlookup_eq_none_iff] at hmem
        rw [hmem] at hs
        simp at hs
      have hshareS : ((entries.filter
          (fun e => (dlookup e.metric_name mvals).isSome)).map
          (fun e => (dlookup e.metric_name weights).getD 0)).sum ≤
          available_weight_sum weights mvals := by
        rw [hlk]
        calc (((entries.filter
              (fun e => (dlookup e.metric_name mvals).isSome)).map
              (·.metric_name)).map (fun k => (dlookup k weights).getD 0)).sum
            ≤ ((dkeys mvals).map fun k => (dlookup k weights).getD 0).sum :=
              sum_map_le_of_nodup_subset _
                (fun k => dlookup_getD_nonneg hw k) _ _ hksnd hsub
          _ = available_weight_sum weights mvals :=
              (available_weight_sum_keys weights mvals).symm
      rcases hsf : scorecard_fold weights (available_weight_sum weights mvals)
          minOf maxOf mvals entries with ⟨used, total, bal, inc, cf⟩
      rw [hsf] at h
      simp only [] at h
      rw [← h]
      have htotal : total = ((entries.filter
          (fun e => (dlookup e.metric_name mvals).isSome)).map
          (fun e => (dlookup e.metric_name weights).getD 0 /
              available_weight_sum weights mvals *
            normalized_value e.type (minOf e.metric_name)
              (maxOf e.metric_name)
              ((dlookup e.metric_name mvals).getD 0))).sum := by
        have he := scorecard_fold_total_eq weights
          (available_weight_sum weights mvals) minOf maxOf mvals entries
        rw [hsf] at he
        exact he
      rw [htotal]
      exact ⟨round6_nonneg (scorecard_contrib_sum_bounds weights _ minOf maxOf
          mvals _ hw (not_le.1 hS) hshareS).1,
        round6_le_one (scorecard_contrib_sum_bounds weights _ minOf maxOf
          mvals _ hw (not_le.1 hS) hshareS).2⟩
  · rw [if_neg hred] at h
    simp only [Option.map_some'] at h
    injection h with h
    have hshare1 : ((entries.filter
        (fun e => (dlookup e.metric_name mvals).isSome)).map
        (fun e => (dlookup e.metric_name weights).getD 0)).sum ≤ 1 := by
      rw [hlk]
      calc (((entries.filter
            (fun e => (dlookup e.metric_name mvals).isSome)).map
            (·.metric_name)).map (fun k => (dlookup k weights).getD 0)).sum
          ≤ sumValues weights :=
            sum_dlookup_le_sumValues weights hw _ hksnd
        _ ≤ 1 := hsum
    rcases hsf : scorecard_fold weights 1 minOf maxOf mvals entries
      with ⟨used, total, bal, inc, cf⟩
    rw [hsf] at h
    simp only [] at h
    rw [← h]
    have htotal : total = ((entries.filter
        (fun e => (dlookup e.metric_name mvals).isSome)).map
        (fun e => (dlookup e.metric_name weights).getD 0 / 1 *
          normalized_value e.type (minOf e.metric_name) (maxOf e.metric_name)
            ((dlookup e.metric_name mvals).getD 0))).sum := by
      have he := scorecard_fold_total_eq weights 1 minOf maxOf mvals entries
      rw [hsf] at he
      exact he
    rw [htotal]
    exact ⟨round6_nonneg (scorecard_contrib_sum_bounds weights 1 minOf maxOf
        mvals _ hw one_pos hshare1).1,
      round6_le_one (scorecard_contrib_sum_bounds weights 1 minOf maxOf
        mvals _ hw one_pos hshare1).2⟩

/-- **C9**: every total score the scoring engine produces lies in `[0, 1]`:
each normalized metric value is clamped to `[0, 1]`; and — given the
schema's non-negative request weights, and for the scorecard a non-negative
resolved weight map totalling at most 1 over duplicate-free catalog metric
names — the rounded weighted sums of the ranking, the preview (whose items
carry the base ranking's scores), the scorecard cards, and the simulation
baseline and simulated passes all stay within `[0, 1]` under every
missing-data policy. -/
theorem C9_score_bounds :
    (∀ (t : MType) (minv maxv v : ℚ),
      0 ≤ normalized_value t minv maxv v ∧
        normalized_value t minv maxv v ≤ 1) ∧
    (∀ (metrics : List MetricWeightInput) (rows : List Row) (policy : Policy)
       (limit : Option ℕ) (out : WSMScoreOutput),
      (∀ mw ∈ metrics, 0 ≤ mw.weight) →
      calculate_wsm_score metrics rows policy limit = .ok out →
      ∀ i ∈ out.ranking, 0 ≤ i.score ∧ i.score ≤ 1) ∧
    (∀ (metrics : List MetricWeightInput)
       (score_rows coverage_rows : List Row) (total_metrics : ℕ)
       (policy : Policy) (limit : Option ℕ) (out : PreviewOutput),
      (∀ mw ∈ metrics, 0 ≤ mw.weight) →
      calculate_wsm_score_preview metrics score_rows coverage_rows
        total_metrics policy limit = .ok out →
      ∀ it ∈ out.ranking, 0 ≤ it.score ∧ it.score ≤ 1) ∧
    (∀ (entries : List MetricMappingEntry) (weights : Dict ℚ)
       (policy : Policy) (minOf maxOf : String → ℚ) (total_metrics : ℕ)
       (mvals : Dict ℚ) (c : TickerComputed),
      (∀ p ∈ weights, 0 ≤ p.2) → sumValues weights ≤ 1 →
      (entries.map (·.metric_name)).Nodup →
      compute_for_ticker entries weights policy minOf maxOf total_metrics
        mvals = some c →
      0 ≤ c.total_score ∧ c.total_score ≤ 1) ∧
    (∀ (metrics : List MetricWeightInput) (rows : List Row) (ticker : String)
       (policy : Policy) (overrides : List MetricOverride) (s : ℚ),
      (∀ mw ∈ metrics, 0 ≤ mw.weight) →
      ((run_simulation metrics rows ticker policy overrides).baseline_score =
          some s ∨
       (run_simulation metrics rows ticker policy
          overrides).simulated_score = some s) →
      0 ≤ s ∧ s ≤ 1) := by
  refine ⟨fun t minv maxv v =>
      ⟨normalized_value_nonneg t minv maxv v,
       normalized_value_le_one t minv maxv v⟩,
    fun metrics rows policy limit out hw hok =>
      calculate_wsm_score_ranking_bounds metrics rows policy limit out hw hok,
    fun metrics srows crows tm policy limit out hw hok it hit => ?_,
    fun entries weights policy minOf maxOf tm mvals c hw hsum hnd hok =>
      compute_for_ticker_total_bounds entries weights policy minOf maxOf tm
        mvals c hw hsum hnd hok,
    fun metrics rows ticker policy overrides s hw hor => ?_⟩
  · rcases preview_score_origin hok with ⟨base, hbase, horg⟩
    rcases horg it hit with ⟨i, hi, hsc⟩
    rw [hsc]
    exact calculate_wsm_score_ranking_bounds metrics srows policy limit base
      hw hbase i hi
  · rcases hor with hb | hs
    · rw [run_simulation_baseline] at hb
      exact compute_single_ticker_score_bounds metrics rows ticker policy
        none s hw hb
    · rw [run_simulation_simulated] at hs
      exact compute_single_ticker_score_bounds metrics rows ticker policy _ s
        hw hs

set_option maxHeartbeats 4000000 in
/-- Witness for `C9_score_bounds`: a concrete one-metric universe exercising
the ranking, preview, scorecard and simulation clauses, every hypothesis
evaluated. -/
theorem C9_score_bounds_witness :
    (0 ≤ (RankingItem.mk "A" 1).score ∧ (RankingItem.mk "A" 1).score ≤ 1) ∧
    (0 ≤ (PreviewItem.mk 1 "A" 1 ⟨1, 1, 1⟩).score ∧
      (PreviewItem.mk 1 "A" 1 ⟨1, 1, 1⟩).score ≤ 1) ∧
    (0 ≤ (TickerComputed.mk 1 1 1 1 0 0).total_score ∧
      (TickerComputed.mk 1 1 1 1 0 0).total_score ≤ 1) ∧
    (0 ≤ (1 : ℚ) ∧ (1 : ℚ) ≤ 1) := by
  have hwm : ∀ mw ∈ [(⟨"m", MType.benefit, 1⟩ : MetricWeightInput)],
      0 ≤ mw.weight := by
    intro mw hmw
    rcases List.mem_singleton.1 hmw with rfl
    norm_num
  have hok2 : calculate_wsm_score [⟨"m", MType.benefit, 1⟩]
      [("A", "m", some 2)] .zero none = .ok ⟨[⟨"A", 1⟩], []⟩ := by
    simp [calculate_wsm_score, wsm_final_ranking, wsm_ranking0, wsm_dropped,
      wsm_results, normalize_weights, dictOf, upsert, sumValues, typeOf,
      metric_type_by_name, dlookup, build_ticker_metric_values, upsertInner,
      adjustValue, missing_metrics_of, process_ticker, ticker_score,
      normalized_value, clamp01, min_by_metric, max_by_metric, metric_column,
      sortByKey, insertSorted, available_weight_sum, Bind.bind, Except.bind,
      pure, Except.pure, List.dedup_cons_of_mem, List.dedup_cons_of_not_mem,
      List.dedup_nil, List.cons_ne_nil, List.filterMap, List.max?, List.min?,
      List.foldl, List.foldr]
    norm_num [dlookup, Option.getD, round6_one, min_def, max_def,
      List.cons_ne_nil]
  have hok3 : calculate_wsm_score_preview [⟨"m", MType.benefit, 1⟩]
      [("A", "m", some 2)] [("A", "m", some 2)] 1 .zero none =
      .ok ⟨[⟨1, "A", 1, ⟨1, 1, 1⟩⟩], []⟩ := by
    rw [calculate_wsm_score_preview, hok2]
    simp [coverage_of, coverage_used_of, tickers_of, preview_key, sortByKey,
      insertSorted, List.enumFrom, Bind.bind, Except.bind, pure, Except.pure,
      List.filterMap, List.foldr, List.filter_cons, List.filter_nil,
      List.dedup_cons_of_mem, List.dedup_cons_of_not_mem, List.dedup_nil]
    norm_num [round6_one, List.enumFrom, List.filter_cons, List.filter_nil,
      coverage_of, coverage_used_of]
  have hok4 : compute_for_ticker [⟨"m", "balance", MType.benefit, 1⟩]
      [("m", 1)] .zero (fun _ => (0 : ℚ)) (fun _ => (2 : ℚ)) 1 [("m", 2)] =
      some ⟨1, 1, 1, 1, 0, 0⟩ := by
    simp [compute_for_ticker, scorecard_fold, missing_metrics_of, dlookup,
      normalized_value, clamp01, normalize_section_key, available_weight_sum,
      List.dedup_cons_of_mem, List.dedup_cons_of_not_mem, List.dedup_nil,
      List.filter_cons, List.filter_nil, List.foldl]
    norm_num [Option.getD, round6_one, min_def, max_def]
  have hb5 : (run_simulation [⟨"m", MType.benefit, 1⟩] [("A", "m", some 2)]
      "A" .zero []).baseline_score = some 1 := by
    rw [run_simulation_baseline]
    simp [compute_single_ticker_score, single_ticker_values, apply_overrides,
      typeOf, metric_type_by_name, dictOf, upsert, dlookup, adjustValue,
      missing_metrics_of, ticker_score, normalized_value, clamp01,
      min_by_metric, max_by_metric, metric_column, available_weight_sum,
      List.dedup_cons_of_mem, List.dedup_cons_of_not_mem, List.dedup_nil,
      List.cons_ne_nil, List.filterMap, List.max?, List.min?, List.foldl,
      List.foldr]
    norm_num [dlookup, Option.getD, round6_one, min_def, max_def,
      List.cons_ne_nil]
  refine ⟨C9_score_bounds.2.1 [⟨"m", MType.benefit, 1⟩] [("A", "m", some 2)]
      .zero none ⟨[⟨"A", 1⟩], []⟩ hwm hok2 ⟨"A", 1⟩ (by simp),
    C9_score_bounds.2.2.1 [⟨"m", MType.benefit, 1⟩] [("A", "m", some 2)]
      [("A", "m", some 2)] 1 .zero none ⟨[⟨1, "A", 1, ⟨1, 1, 1⟩⟩], []⟩ hwm
      hok3 ⟨1, "A", 1, ⟨1, 1, 1⟩⟩ (by simp),
    C9_score_bounds.2.2.2.1 [⟨"m", "balance", MType.benefit, 1⟩] [("m", 1)]
      .zero (fun _ => (0 : ℚ)) (fun _ => (2 : ℚ)) 1 [("m", 2)]
      ⟨1, 1, 1, 1, 0, 0⟩
      (by intro p hp; rcases List.mem_singleton.1 hp with rfl; norm_num)
      (by norm_num [sumValues]) (by decide) hok4,
    C9_score_bounds.2.2.2.2 [⟨"m", MType.benefit, 1⟩] [("A", "m", some 2)]
      "A" .zero [] 1 hwm (Or.inl hb5)⟩

end Wsm
